import Mathlib

/-!
# fileinfocache: a content-addressed index of file records

A shallow embedding of `cache.go` (package `fileinfocache`) and the properties
its specification states about it.

Modelling decisions

* A Go `string` and a Go `[]byte` are sequences of bytes (`List (Fin 256)`): a
  file name need not be valid UTF-8.
* A Go `map[string]FileInfos` is a finite map, kept as an association list in
  strictly increasing key order (bytewise, the order of Go's string `<`), so
  that equal maps are equal values; the nil map is a map of its own, without
  entries.  A Go slice is a list where only its elements matter (the argument
  of NewCache, the result of a map index expression); as a value stored in the
  map it is a `Slice`, which tells the nil slice from the empty one as the
  encoder does.
* `log.Fatal` and a runtime panic end the run: functions that can reach one
  return `Except Stop _`.
* What the operating system answers (file contents, directory listings, the
  clock, free space) is a field of `World` or an argument.
* The standard library (`crypto/md5`, `encoding/json`, `time`, `path/filepath`,
  `compress/gzip`) is modelled by its documented behaviour.
-/

namespace Fileinfocache

/-! ## Bytes and strings -/

/-- One byte. -/
abbrev Byte := Fin 256

/-- A Go `[]byte`. -/
abbrev Bytes := List Byte

/-- A Go `string`: a sequence of bytes, not necessarily valid UTF-8. -/
abbrev GoString := List Byte

/-- The byte with value `n % 256`. -/
def byte (n : Nat) : Byte := ⟨n % 256, Nat.mod_lt _ (by decide)⟩

/-- The bytes of a text of ASCII characters (other characters are cut to their
low eight bits; only ASCII literals are written with it). -/
def ascii (s : String) : Bytes := s.toList.map (fun c => byte c.toNat)

/-! ## crypto/md5 (RFC 1321) -/

namespace MD5

/-- Addition of 32-bit words. -/
def add32 (x y : Nat) : Nat := (x + y) % 4294967296

/-- Left rotation of a 32-bit word by `s` bits, `0 < s < 32`. -/
def rotl32 (x s : Nat) : Nat := ((x <<< s) % 4294967296) ||| (x >>> (32 - s))

/-- Bitwise complement of a 32-bit word. -/
def not32 (x : Nat) : Nat := x ^^^ 4294967295

/-- The table of `floor (2^32 * |sin (i + 1)|)`. -/
def K : List Nat :=
  [0xd76aa478, 0xe8c7b756, 0x242070db, 0xc1bdceee, 0xf57c0faf, 0x4787c62a, 0xa8304613, 0xfd469501,
   0x698098d8, 0x8b44f7af, 0xffff5bb1, 0x895cd7be, 0x6b901122, 0xfd987193, 0xa679438e, 0x49b40821,
   0xf61e2562, 0xc040b340, 0x265e5a51, 0xe9b6c7aa, 0xd62f105d, 0x02441453, 0xd8a1e681, 0xe7d3fbc8,
   0x21e1cde6, 0xc33707d6, 0xf4d50d87, 0x455a14ed, 0xa9e3e905, 0xfcefa3f8, 0x676f02d9, 0x8d2a4c8a,
   0xfffa3942, 0x8771f681, 0x6d9d6122, 0xfde5380c, 0xa4beea44, 0x4bdecfa9, 0xf6bb4b60, 0xbebfbc70,
   0x289b7ec6, 0xeaa127fa, 0xd4ef3085, 0x04881d05, 0xd9d4d039, 0xe6db99e5, 0x1fa27cf8, 0xc4ac5665,
   0xf4292244, 0x432aff97, 0xab9423a7, 0xfc93a039, 0x655b59c3, 0x8f0ccc92, 0xffeff47d, 0x85845dd1,
   0x6fa87e4f, 0xfe2ce6e0, 0xa3014314, 0x4e0811a1, 0xf7537e82, 0xbd3af235, 0x2ad7d2bb, 0xeb86d391]

/-- The per-step rotation amounts. -/
def S : List Nat :=
  [7, 12, 17, 22, 7, 12, 17, 22, 7, 12, 17, 22, 7, 12, 17, 22,
   5, 9, 14, 20, 5, 9, 14, 20, 5, 9, 14, 20, 5, 9, 14, 20,
   4, 11, 16, 23, 4, 11, 16, 23, 4, 11, 16, 23, 4, 11, 16, 23,
   6, 10, 15, 21, 6, 10, 15, 21, 6, 10, 15, 21, 6, 10, 15, 21]

/-- The four chaining words. -/
structure State where
  a : Nat
  b : Nat
  c : Nat
  d : Nat
deriving DecidableEq, Repr

/-- The initial chaining value. -/
def init : State := ⟨0x67452301, 0xefcdab89, 0x98badcfe, 0x10325476⟩

/-- The round function of step `i` and the index of the message word it uses. -/
def mix (i b c d : Nat) : Nat × Nat :=
  if i < 16 then ((b &&& c) ||| (not32 b &&& d), i)
  else if i < 32 then ((d &&& b) ||| (not32 d &&& c), (5 * i + 1) % 16)
  else if i < 48 then (b ^^^ c ^^^ d, (3 * i + 5) % 16)
  else (c ^^^ (b ||| not32 d), (7 * i) % 16)

/-- One of the 64 steps on the block whose sixteen words are `m`. -/
def step (m : List Nat) (s : State) (i : Nat) : State :=
  let fg := mix i s.b s.c s.d
  let f := add32 (add32 (add32 fg.1 s.a) (K.getD i 0)) (m.getD fg.2 0)
  ⟨s.d, add32 s.b (rotl32 f (S.getD i 0)), s.b, s.c⟩

/-- The little-endian 32-bit words of a byte sequence (a trailing group of
fewer than four bytes is dropped; blocks are 64 bytes). -/
def words : Bytes → List Nat
  | b0 :: b1 :: b2 :: b3 :: rest =>
      (b0.val + 256 * b1.val + 65536 * b2.val + 16777216 * b3.val) :: words rest
  | _ => []

/-- Processing of one 64-byte block. -/
def block (s : State) (blk : Bytes) : State :=
  let t := (List.range 64).foldl (step (words blk)) s
  ⟨add32 s.a t.a, add32 s.b t.b, add32 s.c t.c, add32 s.d t.d⟩

/-- The little-endian bytes of the low `8 * n` bits of `x`. -/
def le : Nat → Nat → Bytes
  | 0, _ => []
  | n + 1, x => byte x :: le n (x / 256)

/-- The padding: a one bit, zero bits up to 56 modulo 64 bytes, then the
length in bits as a 64-bit little-endian number. -/
def pad (len : Nat) : Bytes :=
  byte 0x80 :: List.replicate ((55 + 64 - len % 64) % 64) (byte 0) ++ le 8 ((8 * len) % 2 ^ 64)

/-- All 64-byte blocks of a sequence, in order (`n` bounds their number). -/
def blocks : Nat → Bytes → List Bytes
  | 0, _ => []
  | n + 1, bs => if bs.length < 64 then [] else bs.take 64 :: blocks n (bs.drop 64)

/-- The 16-byte MD5 digest of a message. -/
def sum (msg : Bytes) : Bytes :=
  let padded := msg ++ pad msg.length
  let s := (blocks padded.length padded).foldl block init
  le 4 s.a ++ le 4 s.b ++ le 4 s.c ++ le 4 s.d

end MD5

/-- One lowercase hexadecimal digit, `n < 16`. -/
def hexDigit (n : Nat) : Byte := if n < 10 then byte (48 + n) else byte (87 + n)

/-- The text `fmt.Sprintf("%x", b)` of a byte slice: two lowercase hexadecimal
digits for each byte. -/
def hexString : Bytes → GoString
  | [] => []
  | b :: rest => hexDigit (b.val / 16) :: hexDigit (b.val % 16) :: hexString rest

/-! ## The data model -/

/-- A `time.Time`, by what its accessors `Date`, `Clock`, `Nanosecond` and
`Zone` report: the calendar date and the clock reading in the value's own
zone, and the zone's offset east of UTC in seconds.  (The location's name and
the monotonic clock reading are not part of the model.) -/
structure Time where
  year : Int
  month : Nat
  day : Nat
  hour : Nat
  minute : Nat
  second : Nat
  nano : Nat
  offset : Int
deriving DecidableEq, Repr

/-- The zero `time.Time`: January 1, year 1, 00:00:00 UTC. -/
def Time.zero : Time := ⟨1, 1, 1, 0, 0, 0, 0, 0⟩

/-- An `os.FileInfo`: the answers of its methods `Name`, `Size`, `Mode`,
`ModTime` and `IsDir`. -/
structure OsFileInfo where
  name : GoString
  size : Int
  mode : Nat
  modTime : Time
  isDir : Bool
deriving DecidableEq, Repr

/-- FileInfo is the static representation of an os.FileInfo. -/
structure FileInfo where
  Name : GoString
  Size : Int
  Mode : Nat
  ModTime : Time
  IsDir : Bool
deriving DecidableEq, Repr

/-- NewFileInfo creates a FileInfo from an os.FileInfo. -/
def NewFileInfo (fi : OsFileInfo) : FileInfo :=
  { Name := fi.name, Size := fi.size, Mode := fi.mode, ModTime := fi.modTime, IsDir := fi.isDir }

/-- FileInfos is a collection of FileInfo. -/
abbrev FileInfos := List FileInfo

/-- A FileInfos as it is stored under a key of the map: the nil slice, or a
slice with its sequence of elements, which may be empty. -/
inductive Slice where
  | null
  | items (l : FileInfos)
deriving DecidableEq, Repr

/-- The elements of a stored slice; the nil slice has none. -/
def Slice.toList : Slice → FileInfos
  | .null => []
  | .items l => l

/-! ## Go's string order and the finite map -/

/-- Go's `<` on strings: bytewise lexicographic order. -/
def strLt : GoString → GoString → Bool
  | [], [] => false
  | [], _ :: _ => true
  | _ :: _, [] => false
  | a :: as, b :: bs => if a.val < b.val then true else if a.val = b.val then strLt as bs else false

/-- Entries of a map, in strictly increasing key order. -/
def KeysAscending (l : List (GoString × Slice)) : Prop :=
  l.Pairwise (fun x y => strLt x.1 y.1 = true)

/-- Assignment `m[k] = v` on the entry list. -/
def setEntry (k : GoString) (v : Slice) : List (GoString × Slice) → List (GoString × Slice)
  | [] => [(k, v)]
  | e :: rest =>
      if k = e.1 then (k, v) :: rest
      else if strLt k e.1 then (k, v) :: e :: rest
      else e :: setEntry k v rest

/-- The entry of key `k`, when there is one. -/
def findEntry (k : GoString) : List (GoString × Slice) → Option Slice
  | [] => none
  | e :: rest => if k = e.1 then some e.2 else findEntry k rest

/-- What a step that ends the run was doing. -/
inductive Step where
  | abs | openFile | readFile | marshal | compress | create | decompress | unmarshal
deriving DecidableEq, Repr

/-- How a run ends before its function returns: `log.Fatal` at a step, or a
runtime panic. -/
inductive Stop where
  | fatal (at_ : Step)
  | panic
deriving DecidableEq, Repr

theorem strLt_irrefl (a : GoString) : strLt a a = false := by
  induction a with
  | nil => rfl
  | cons x xs ih => simp [strLt, ih]

theorem strLt_trans : ∀ (a b c : GoString), strLt a b = true → strLt b c = true → strLt a c = true
  | [], [], _, h, _ => by simp [strLt] at h
  | [], _ :: _, [], _, h => by simp [strLt] at h
  | [], _ :: _, _ :: _, _, _ => by simp [strLt]
  | _ :: _, [], _, h, _ => by simp [strLt] at h
  | _ :: _, _ :: _, [], _, h => by simp [strLt] at h
  | x :: xs, y :: ys, z :: zs, h1, h2 => by
      simp only [strLt] at h1 h2 ⊢
      by_cases hxz : x.val < z.val
      · simp [hxz]
      · have hxy : ¬ x.val < y.val := by
          intro hlt
          by_cases hyz : y.val < z.val
          · omega
          · by_cases hyz2 : y.val = z.val
            · omega
            · simp [hyz, hyz2] at h2
        rw [if_neg hxy] at h1
        by_cases hxy2 : x.val = y.val
        · rw [if_pos hxy2] at h1
          have hyz : ¬ y.val < z.val := by omega
          rw [if_neg hyz] at h2
          by_cases hyz2 : y.val = z.val
          · rw [if_pos hyz2] at h2
            rw [if_neg hxz, if_pos (hxy2.trans hyz2)]
            exact strLt_trans xs ys zs h1 h2
          · rw [if_neg hyz2] at h2
            exact Bool.noConfusion h2
        · rw [if_neg hxy2] at h1
          exact Bool.noConfusion h1

theorem strLt_connex : ∀ (a b : GoString), a ≠ b → strLt a b = false → strLt b a = true
  | [], [], h, _ => absurd rfl h
  | [], _ :: _, _, h => by simp [strLt] at h
  | _ :: _, [], _, _ => by simp [strLt]
  | x :: xs, y :: ys, hne, h => by
      simp only [strLt] at h ⊢
      by_cases hxy : x.val < y.val
      · rw [if_pos hxy] at h
        exact Bool.noConfusion h
      · rw [if_neg hxy] at h
        by_cases hxy2 : x.val = y.val
        · rw [if_pos hxy2] at h
          have hx : x = y := Fin.ext hxy2
          have hne2 : xs ≠ ys := by
            intro e
            exact hne (by rw [hx, e])
          have h5 : ¬ y.val < x.val := by omega
          rw [if_neg h5, if_pos hxy2.symm]
          exact strLt_connex xs ys hne2 h
        · have : y.val < x.val := by omega
          rw [if_pos this]

theorem strLt_ne {a b : GoString} (h : strLt a b = true) : a ≠ b := by
  intro e
  rw [e, strLt_irrefl] at h
  exact Bool.noConfusion h

theorem setEntry_keys (k : GoString) (v : Slice) (l : List (GoString × Slice))
    (x : GoString × Slice) (hx : x ∈ setEntry k v l) : x.1 = k ∨ x ∈ l := by
  induction l with
  | nil =>
      simp only [setEntry, List.mem_singleton] at hx
      exact Or.inl (by rw [hx])
  | cons e rest ih =>
      simp only [setEntry] at hx
      split at hx
      · rcases List.mem_cons.1 hx with h | h
        · exact Or.inl (by rw [h])
        · exact Or.inr (List.mem_cons_of_mem _ h)
      · split at hx
        · rcases List.mem_cons.1 hx with h | h
          · exact Or.inl (by rw [h])
          · exact Or.inr h
        · rcases List.mem_cons.1 hx with h | h
          · exact Or.inr (by rw [h]; exact List.mem_cons_self _ _)
          · rcases ih h with h2 | h2
            · exact Or.inl h2
            · exact Or.inr (List.mem_cons_of_mem _ h2)

theorem setEntry_ascending (k : GoString) (v : Slice) (l : List (GoString × Slice))
    (h : KeysAscending l) : KeysAscending (setEntry k v l) := by
  induction l with
  | nil => simp [setEntry, KeysAscending]
  | cons e rest ih =>
      have hp := List.pairwise_cons.1 h
      simp only [setEntry]
      split
      · rename_i hk
        exact List.pairwise_cons.2 ⟨fun y hy => by simpa [hk] using hp.1 y hy, hp.2⟩
      · split
        · rename_i hk hlt
          refine List.pairwise_cons.2 ⟨fun y hy => ?_, h⟩
          rcases List.mem_cons.1 hy with hy | hy
          · rw [hy]; exact hlt
          · exact strLt_trans _ _ _ hlt (hp.1 y hy)
        · rename_i hk hlt
          refine List.pairwise_cons.2 ⟨fun y hy => ?_, ih hp.2⟩
          rcases setEntry_keys k v rest y hy with hy | hy
          · rw [hy]
            exact strLt_connex k e.1 hk (by simpa using hlt)
          · exact hp.1 y hy

instance {α : Type} [DecidableEq α] : DecidableEq (Except Stop α)
  | .ok a, .ok b =>
      if h : a = b then isTrue (by rw [h]) else isFalse (fun e => h (Except.ok.inj e))
  | .error a, .error b =>
      if h : a = b then isTrue (by rw [h]) else isFalse (fun e => h (Except.error.inj e))
  | .ok _, .error _ => isFalse (fun e => Except.noConfusion e)
  | .error _, .ok _ => isFalse (fun e => Except.noConfusion e)

/-- Cache is a collection of FileInfos accessable via a calculated key. -/
structure Cache where
  entries : List (GoString × Slice)
  ascending : KeysAscending entries
  /-- Whether the map is the nil map (`var c Cache`). -/
  isNil : Bool
  /-- The nil map has no entries. -/
  nilEmpty : isNil = true → entries = []

/-- The empty map, `make(Cache, 1000)` or `Cache{}`. -/
def Cache.empty : Cache := ⟨[], List.Pairwise.nil, false, fun _ => rfl⟩

/-- The nil map, `var c Cache`. -/
def Cache.null : Cache := ⟨[], List.Pairwise.nil, true, fun _ => rfl⟩

/-- The map that is not nil and has the given entries. -/
def Cache.ofEntries (entries : List (GoString × Slice)) (h : KeysAscending entries) : Cache :=
  ⟨entries, h, false, fun e => Bool.noConfusion e⟩

/-- The map index expression `c[k]`, by its elements: the sequence under `k`,
the empty sequence when `k` is not a key. -/
def Cache.get (c : Cache) (k : GoString) : FileInfos :=
  ((findEntry k c.entries).map Slice.toList).getD []

/-- Whether `k` is a key of the map. -/
def Cache.has (c : Cache) (k : GoString) : Bool := (findEntry k c.entries).isSome

/-- The map assignment `c[k] = v` on a map that is not nil. -/
def Cache.set (c : Cache) (k : GoString) (v : Slice) : Cache :=
  ⟨setEntry k v c.entries, setEntry_ascending k v c.entries c.ascending, false,
    fun e => Bool.noConfusion e⟩

/-- The keys of the map, in increasing order. -/
def Cache.keys (c : Cache) : List GoString := c.entries.map Prod.fst

/-- All records of the map: the sequences of all keys, one after another. -/
def Cache.records (c : Cache) : List FileInfo :=
  (c.entries.map (fun e => e.2.toList)).flatten

instance : DecidableEq Cache := fun a b =>
  if h : a.entries = b.entries ∧ a.isNil = b.isNil then
    isTrue (by cases a; cases b; simp only [Cache.mk.injEq]; exact h)
  else isFalse (fun e => h (by rw [e]; exact ⟨rfl, rfl⟩))

/-! ## The world outside the program -/

/-- An entry of the directory tree as `filepath.Walk` meets it, with the name
it has in its directory and what `Lstat` reports for it. -/
inductive Node where
  /-- An entry that is not a directory. -/
  | file (name : GoString) (size : Int) (mode : Nat) (modTime : Time)
  /-- A directory whose entries can be listed, with its entries. -/
  | dir (name : GoString) (size : Int) (mode : Nat) (modTime : Time) (entries : List Node)
  /-- A directory whose entries cannot be listed (`readDirNames` fails). -/
  | lockedDir (name : GoString) (size : Int) (mode : Nat) (modTime : Time)
  /-- An entry for which `Lstat` fails. -/
  | broken (name : GoString)

/-- The name of an entry in its directory. -/
def Node.name : Node → GoString
  | .file name _ _ _ => name
  | .dir name _ _ _ _ => name
  | .lockedDir name _ _ _ => name
  | .broken name => name

/-- What the program is given by the operating system. -/
structure World where
  /-- The content of each file that `os.Open` opens and that can be read to the
  end; `none` for a path where opening or reading fails. -/
  files : GoString → Option Bytes
  /-- The result of `filepath.Abs`; `none` when it fails. -/
  abs : GoString → Option GoString
  /-- The directory tree found at an absolute path. -/
  tree : GoString → Node
  /-- Paths that `os.OpenFile` cannot open for writing. -/
  denied : GoString → Bool
  /-- The number of bytes the destination still accepts. -/
  room : Nat
  /-- The reading of the clock, `time.Now()`. -/
  now : Time

/-! ## Keys, insertion and grouping -/

/-- makeKey calculates the md5sum of the referenced file for a key. -/
def Cache.makeKey (w : World) (_c : Cache) (fi : FileInfo) : Except Stop GoString :=
  match w.files fi.Name with
  | none => .error (.fatal .openFile)
  | some content => .ok (hexString (MD5.sum content))

/-- Insert takes a FileInfo and puts it in the appropriate position in the
Cache.  (The assignment to an entry of the nil map is a runtime panic.) -/
def Cache.Insert (w : World) (c : Cache) (fi : FileInfo) : Except Stop Cache :=
  match c.makeKey w fi with
  | .error e => .error e
  | .ok key =>
      if c.isNil then .error .panic else .ok (c.set key (.items (c.get key ++ [fi])))

/-- The loop of NewCache over the entries still to insert. -/
def insertAll (w : World) : Cache → List FileInfo → Except Stop Cache
  | c, [] => .ok c
  | c, e :: rest =>
      match c.Insert w e with
      | .error s => .error s
      | .ok c1 => insertAll w c1 rest

/-- NewCache takes a collection of os.FileInfo and inserts each in the newly
created Cache. -/
def NewCache (w : World) (entries : FileInfos) : Except Stop Cache :=
  insertAll w Cache.empty entries

/-! ## unicode/utf8 -/

/-- A continuation byte, `0x80..0xBF`. -/
def isCont (b : Byte) : Bool := decide (0x80 ≤ b.val ∧ b.val ≤ 0xBF)

/-- The range `utf8.DecodeRune` accepts for the second byte after the first
byte `b0` (`acceptRanges`). -/
def secondOk (b0 b1 : Byte) : Bool :=
  if b0.val = 0xE0 then decide (0xA0 ≤ b1.val ∧ b1.val ≤ 0xBF)
  else if b0.val = 0xED then decide (0x80 ≤ b1.val ∧ b1.val ≤ 0x9F)
  else if b0.val = 0xF0 then decide (0x90 ≤ b1.val ∧ b1.val ≤ 0xBF)
  else if b0.val = 0xF4 then decide (0x80 ≤ b1.val ∧ b1.val ≤ 0x8F)
  else isCont b1

/-- The size `utf8.DecodeRune` reports for a well-formed encoding at the head
of `s`, and 0 where it reports `RuneError` with size 1 (a byte that starts no
well-formed encoding) or where `s` is empty. -/
def utf8Len : Bytes → Nat
  | [] => 0
  | b0 :: rest =>
      if b0.val < 0x80 then 1
      else if b0.val < 0xC2 then 0
      else if b0.val < 0xE0 then
        match rest with
        | b1 :: _ => if secondOk b0 b1 then 2 else 0
        | _ => 0
      else if b0.val < 0xF0 then
        match rest with
        | b1 :: b2 :: _ => if secondOk b0 b1 && isCont b2 then 3 else 0
        | _ => 0
      else if b0.val < 0xF5 then
        match rest with
        | b1 :: b2 :: b3 :: _ => if secondOk b0 b1 && isCont b2 && isCont b3 then 4 else 0
        | _ => 0
      else 0

/-- The pieces a string is read in, rune by rune: each piece is a well-formed
UTF-8 encoding or one byte that starts none (`n` bounds the number of pieces). -/
def pieces : Nat → Bytes → List Bytes
  | 0, _ => []
  | _ + 1, [] => []
  | n + 1, b :: rest =>
      (b :: rest).take (max 1 (utf8Len (b :: rest))) ::
        pieces n ((b :: rest).drop (max 1 (utf8Len (b :: rest))))

/-- Whether a piece is a well-formed UTF-8 encoding. -/
def wellFormed (piece : Bytes) : Bool := decide (piece ≠ [] ∧ utf8Len piece = piece.length)

/-- Whether a string is valid UTF-8 (`utf8.ValidString`). -/
def validUTF8 (s : GoString) : Bool := (pieces s.length s).all wellFormed

/-- The UTF-8 encoding of a code point (`utf8.EncodeRune`); a surrogate or a
value above U+10FFFF is encoded as U+FFFD. -/
def encodeRune (r : Nat) : Bytes :=
  if r < 0x80 then [byte r]
  else if r < 0x800 then [byte (0xC0 + r / 64), byte (0x80 + r % 64)]
  else if (0xD800 ≤ r ∧ r < 0xE000) ∨ 0x10FFFF < r then [byte 0xEF, byte 0xBF, byte 0xBD]
  else if r < 0x10000 then [byte (0xE0 + r / 4096), byte (0x80 + r / 64 % 64), byte (0x80 + r % 64)]
  else [byte (0xF0 + r / 262144), byte (0x80 + r / 4096 % 64), byte (0x80 + r / 64 % 64),
        byte (0x80 + r % 64)]

/-! ## time: RFC 3339 text -/

/-- The decimal digit `n % 10` as a character. -/
def digit (n : Nat) : Byte := byte (48 + n % 10)

/-- A number printed with two digits (`appendInt(b, n, 2)` for `n < 100`). -/
def twoDigits (n : Nat) : Bytes := [digit (n / 10), digit n]

/-- A number printed with four digits (`appendInt(b, n, 4)` for `n < 10000`). -/
def fourDigits (n : Nat) : Bytes := [digit (n / 1000), digit (n / 100), digit (n / 10), digit n]

/-- The nine digits of a nanosecond count, most significant first. -/
def nineDigits (n : Nat) : List Nat :=
  [n / 100000000 % 10, n / 10000000 % 10, n / 1000000 % 10, n / 100000 % 10, n / 10000 % 10,
   n / 1000 % 10, n / 100 % 10, n / 10 % 10, n % 10]

/-- A digit sequence without its trailing zeros. -/
def trimZeros (ds : List Nat) : List Nat := (ds.reverse.dropWhile (fun d => d == 0)).reverse

/-- The fraction of a second in the layout `.999999999`: nothing for zero,
else a point and the nine digits without trailing zeros. -/
def fraction (nano : Nat) : Bytes :=
  if nano = 0 then [] else byte 46 :: (trimZeros (nineDigits nano)).map digit

/-- The zone in the layout `Z07:00`: `Z` for offset zero, else the sign,
hours and minutes of the offset cut to whole minutes. -/
def zone (offset : Int) : Bytes :=
  if offset = 0 then [byte 90]
  else
    (if offset ≤ -60 then byte 45 else byte 43) ::
      (twoDigits (offset.natAbs / 60 / 60) ++ byte 58 :: twoDigits (offset.natAbs / 60 % 60))

/-- The text of a time in the layout `RFC3339Nano`,
`2006-01-02T15:04:05.999999999Z07:00`, for a year in `0..9999`. -/
def rfc3339 (t : Time) : Bytes :=
  fourDigits t.year.toNat ++ byte 45 :: (twoDigits t.month ++ byte 45 :: (twoDigits t.day ++
    byte 84 :: (twoDigits t.hour ++ byte 58 :: (twoDigits t.minute ++ byte 58 ::
      (twoDigits t.second ++ (fraction t.nano ++ zone t.offset))))))

/-- The method `Time.MarshalJSON`: the quoted RFC 3339 text, or an error for a
year outside `[0,9999]`. -/
def Time.MarshalJSON (t : Time) : Option Bytes :=
  if t.year < 0 ∨ 10000 ≤ t.year then none
  else some (byte 34 :: (rfc3339 t ++ [byte 34]))

/-! ## encoding/json: the encoder -/

/-- A lowercase hexadecimal digit of the encoder (`hex[n]`). -/
def hexOf (n : Nat) : Byte := hexDigit (n % 16)

/-- What the encoder writes for one piece of a string, with HTML escaping on
as in `json.Marshal`: a quote or backslash behind a backslash; newline,
carriage return and tab as `\n`, `\r`, `\t`; any other control character
and `<`, `>`, `&` as `\u00XX`; U+2028 and U+2029 as `\u2028`, `\u2029`; a
byte that starts no well-formed encoding as `\ufffd`; anything else as it is.
(Later versions of Go write backspace and form feed as `\b` and `\f`; the
decoder reads both forms.) -/
def quotePiece (piece : Bytes) : Bytes :=
  match piece with
  | [b] =>
      if b.val < 0x80 then
        if b.val = 34 ∨ b.val = 92 then [byte 92, b]
        else if b.val = 10 then [byte 92, byte 110]
        else if b.val = 13 then [byte 92, byte 114]
        else if b.val = 9 then [byte 92, byte 116]
        else if b.val < 0x20 ∨ b.val = 60 ∨ b.val = 62 ∨ b.val = 38 then
          [byte 92, byte 117, byte 48, byte 48, hexOf (b.val / 16), hexOf b.val]
        else [b]
      else [byte 92, byte 117, byte 102, byte 102, byte 102, byte 100]
  | _ =>
      if wellFormed piece then
        if piece = [byte 0xE2, byte 0x80, byte 0xA8] then
          [byte 92, byte 117, byte 50, byte 48, byte 50, byte 56]
        else if piece = [byte 0xE2, byte 0x80, byte 0xA9] then
          [byte 92, byte 117, byte 50, byte 48, byte 50, byte 57]
        else piece
      else [byte 92, byte 117, byte 102, byte 102, byte 102, byte 100]

/-- A string as a JSON string literal. -/
def quote (s : GoString) : Bytes :=
  byte 34 :: (((pieces s.length s).map quotePiece).flatten ++ [byte 34])

/-- A natural number in decimal (`n` digits at most are written). -/
def decimalDigits : Nat → Nat → Bytes
  | 0, _ => []
  | fuel + 1, n => if n < 10 then [digit n] else decimalDigits fuel (n / 10) ++ [digit n]

/-- A natural number in decimal (`strconv.AppendUint`). -/
def decimal (n : Nat) : Bytes := decimalDigits (n + 1) n

/-- An integer in decimal (`strconv.AppendInt`). -/
def decimalInt (i : Int) : Bytes := if i < 0 then byte 45 :: decimal i.natAbs else decimal i.natAbs

/-- A sequence of texts with commas between them. -/
def commaSep : List Bytes → Bytes
  | [] => []
  | [x] => x
  | x :: y :: rest => x ++ byte 44 :: commaSep (y :: rest)

/-- All results, or `none` when one is missing. -/
def allSome : List (Option Bytes) → Option (List Bytes)
  | [] => some []
  | none :: _ => none
  | some x :: rest =>
      match allSome rest with
      | none => none
      | some xs => some (x :: xs)

/-- The encoding of a FileInfo: an object with the members `name`, `size`,
`mode`, `modTime`, `isDir` of the struct tags, in the order of the fields. -/
def marshalFileInfo (fi : FileInfo) : Option Bytes :=
  match fi.ModTime.MarshalJSON with
  | none => none
  | some t =>
      some (ascii "\x7b\"name\":" ++ quote fi.Name ++ ascii ",\"size\":" ++ decimalInt fi.Size ++
        ascii ",\"mode\":" ++ decimal fi.Mode ++ ascii ",\"modTime\":" ++ t ++
        ascii ",\"isDir\":" ++ (if fi.IsDir then ascii "true" else ascii "false") ++ ascii "\x7d")

/-- The encoding of a FileInfos: `null` for the nil slice, else an array of its
elements in order. -/
def marshalFileInfos : Slice → Option Bytes
  | .null => some (ascii "null")
  | .items fis =>
      match allSome (fis.map marshalFileInfo) with
      | none => none
      | some xs => some (byte 91 :: (commaSep xs ++ [byte 93]))

/-- The encoding of one map entry: the key as a string, a colon, the value. -/
def marshalEntry (e : GoString × Slice) : Option Bytes :=
  match marshalFileInfos e.2 with
  | none => none
  | some v => some (quote e.1 ++ byte 58 :: v)

/-- The function `json.Marshal` on a Cache: `null` for the nil map, else an
object with the entries in increasing key order; an error when a value cannot
be encoded. -/
def jsonMarshal (c : Cache) : Option Bytes :=
  if c.isNil then some (ascii "null")
  else
    match allSome (c.entries.map marshalEntry) with
    | none => none
    | some xs => some (byte 123 :: (commaSep xs ++ [byte 125]))

/-! ## The document the specification describes -/

/-- A JSON document. -/
inductive Json where
  | null
  | str (s : GoString)
  | num (i : Int)
  | bool (b : Bool)
  | arr (items : List Json)
  | obj (members : List (GoString × Json))

/-- The compact text of a JSON document. -/
def Json.render : Json → Bytes
  | .null => ascii "null"
  | .str s => quote s
  | .num i => decimalInt i
  | .bool b => if b then ascii "true" else ascii "false"
  | .arr items => byte 91 :: (commaSep (renderItems items) ++ [byte 93])
  | .obj members => byte 123 :: (commaSep (renderMembers members) ++ [byte 125])
where
  /-- The texts of the items of an array. -/
  renderItems : List Json → List Bytes
    | [] => []
    | x :: rest => x.render :: renderItems rest
  /-- The texts of the members of an object: name, colon, value. -/
  renderMembers : List (GoString × Json) → List Bytes
    | [] => []
    | (k, x) :: rest => (quote k ++ byte 58 :: x.render) :: renderMembers rest

/-- The object the specification gives for a record: exactly the members
`name`, `size`, `mode`, `modTime` (the timestamp text) and `isDir`, in this
order. -/
def FileInfo.toJson (fi : FileInfo) : Json :=
  .obj [(ascii "name", .str fi.Name), (ascii "size", .num fi.Size), (ascii "mode", .num fi.Mode),
    (ascii "modTime", .str (rfc3339 fi.ModTime)), (ascii "isDir", .bool fi.IsDir)]

/-- The document for a sequence of records: the array of its records in
sequence order, and `null` for the nil slice. -/
def Slice.toJson : Slice → Json
  | .null => .null
  | .items fis => .arr (fis.map FileInfo.toJson)

/-- The document for an Index: the object that maps each key to the document
of its sequence, and `null` for the nil Index. -/
def Cache.toJson (c : Cache) : Json :=
  if c.isNil then .null else .obj (c.entries.map (fun e => (e.1, e.2.toJson)))

/-! ## encoding/json: the decoder

The decoder is modelled on the compact documents the encoder writes: an object
of arrays of objects with the five members in the order of the struct.  String
literals are read as Go reads them (escapes, surrogate pairs, ill-formed UTF-8
replaced by U+FFFD), and `null` is read for the nil map and the nil slice.
Insignificant white space, members in another order or unknown members, `null`
for another value, and the bounds of `int64` and `uint32` are outside the
model. -/

/-- The value of a hexadecimal digit. -/
def hexVal (b : Byte) : Option Nat :=
  if 48 ≤ b.val ∧ b.val ≤ 57 then some (b.val - 48)
  else if 97 ≤ b.val ∧ b.val ≤ 102 then some (b.val - 87)
  else if 65 ≤ b.val ∧ b.val ≤ 70 then some (b.val - 55)
  else none

/-- Four hexadecimal digits (`getu4` without the leading `\u`). -/
def getu4 : Bytes → Option (Nat × Bytes)
  | a :: b :: c :: d :: rest =>
      match hexVal a, hexVal b, hexVal c, hexVal d with
      | some x, some y, some z, some u => some (4096 * x + 256 * y + 16 * z + u, rest)
      | _, _, _, _ => none
  | _ => none

/-- The low half of a surrogate pair whose high half `r` was just read, if
one follows as `\uXXXX`: the code point of the pair and the rest. -/
def lowSurrogate (r : Nat) : Bytes → Option (Nat × Bytes)
  | b1 :: b2 :: rest =>
      if b1.val = 92 ∧ b2.val = 117 then
        match getu4 rest with
        | some (r2, rest2) =>
            if r < 0xDC00 ∧ 0xDC00 ≤ r2 ∧ r2 < 0xE000 then
              some (0x10000 + (r - 0xD800) * 1024 + (r2 - 0xDC00), rest2)
            else none
        | none => none
      else none
  | _ => none

/-- One item of the body of a string literal (`unquoteBytes`): the bytes it
stands for and the rest of the input; `none` for an item that is not allowed. -/
def stringItem : Bytes → Option (Bytes × Bytes)
  | [] => none
  | b :: rest =>
      if b.val = 92 then
        match rest with
        | [] => none
        | e :: rest2 =>
            if e.val = 34 ∨ e.val = 92 ∨ e.val = 47 then some ([e], rest2)
            else if e.val = 98 then some ([byte 8], rest2)
            else if e.val = 102 then some ([byte 12], rest2)
            else if e.val = 110 then some ([byte 10], rest2)
            else if e.val = 114 then some ([byte 13], rest2)
            else if e.val = 116 then some ([byte 9], rest2)
            else if e.val = 117 then
              match getu4 rest2 with
              | none => none
              | some (r, rest3) =>
                  if 0xD800 ≤ r ∧ r < 0xE000 then
                    match lowSurrogate r rest3 with
                    | some (r2, rest4) => some (encodeRune r2, rest4)
                    | none => some (encodeRune 0xFFFD, rest3)
                  else some (encodeRune r, rest3)
            else none
      else if b.val < 0x20 then none
      else if b.val < 0x80 then some ([b], rest)
      else if utf8Len (b :: rest) = 0 then some (encodeRune 0xFFFD, rest)
      else some ((b :: rest).take (utf8Len (b :: rest)), (b :: rest).drop (utf8Len (b :: rest)))

/-- The body of a string literal up to its closing quote (`fuel` bounds the
number of items). -/
def stringBody : Nat → Bytes → Option (GoString × Bytes)
  | 0, _ => none
  | _ + 1, [] => none
  | fuel + 1, b :: rest =>
      if b.val = 34 then some ([], rest)
      else
        match stringItem (b :: rest) with
        | none => none
        | some (out, rest1) =>
            match stringBody fuel rest1 with
            | none => none
            | some (s, rest2) => some (out ++ s, rest2)

/-- A string literal. -/
def parseString (fuel : Nat) : Bytes → Option (GoString × Bytes)
  | [] => none
  | b :: rest => if b.val = 34 then stringBody fuel rest else none

/-- The given text at the head of the input. -/
def expectLit : Bytes → Bytes → Option Bytes
  | [], input => some input
  | _ :: _, [] => none
  | a :: as, b :: bs => if a = b then expectLit as bs else none

/-- A decimal digit character. -/
def isDigit (b : Byte) : Bool := decide (48 ≤ b.val ∧ b.val ≤ 57)

/-- The longest run of digits at the head of the input, and the rest. -/
def digitRun : Bytes → Bytes × Bytes
  | [] => ([], [])
  | b :: rest => if isDigit b then ((b :: (digitRun rest).1), (digitRun rest).2) else ([], b :: rest)

/-- The number a run of digits stands for. -/
def digitsValue (ds : Bytes) : Nat := ds.foldl (fun a d => 10 * a + (d.val - 48)) 0

/-- A natural number: digits, without a leading zero before other digits. -/
def parseNat (input : Bytes) : Option (Nat × Bytes) :=
  match digitRun input with
  | ([], _) => none
  | (d :: ds, rest) => if d.val = 48 ∧ ds ≠ [] then none else some (digitsValue (d :: ds), rest)

/-- An integer: a natural number, or a minus sign and one. -/
def parseInt : Bytes → Option (Int × Bytes)
  | [] => none
  | b :: rest =>
      if b.val = 45 then
        match parseNat rest with
        | none => none
        | some (n, r) => some (-(n : Int), r)
      else
        match parseNat (b :: rest) with
        | none => none
        | some (n, r) => some ((n : Int), r)

/-- A Boolean: `true` or `false`. -/
def parseBool (input : Bytes) : Option (Bool × Bytes) :=
  match expectLit (ascii "true") input with
  | some r => some (true, r)
  | none =>
      match expectLit (ascii "false") input with
      | some r => some (false, r)
      | none => none

/-- Exactly two digits. -/
def twoDigitNum : Bytes → Option (Nat × Bytes)
  | a :: b :: rest =>
      if isDigit a && isDigit b then some (10 * (a.val - 48) + (b.val - 48), rest) else none
  | _ => none

/-- Whether a year is a leap year. -/
def isLeap (year : Nat) : Bool := decide (year % 4 = 0 ∧ (year % 100 ≠ 0 ∨ year % 400 = 0))

/-- The number of days of a month. -/
def daysIn (month year : Nat) : Nat :=
  if month = 2 then (if isLeap year then 29 else 28)
  else if month = 4 ∨ month = 6 ∨ month = 9 ∨ month = 11 then 30
  else 31

/-- The fraction of a second, when a point and a digit follow: the first nine
digits count, scaled to nanoseconds. -/
def parseFraction : Bytes → Nat × Bytes
  | [] => (0, [])
  | [b] => (0, [b])
  | b :: d :: rest =>
      if b.val = 46 ∧ isDigit d = true then
        (digitsValue ((digitRun (d :: rest)).1.take 9) *
            10 ^ (9 - min 9 (digitRun (d :: rest)).1.length),
          (digitRun (d :: rest)).2)
      else (0, b :: d :: rest)

/-- The zone: `Z`, or a sign, two digits of hours, a colon and two digits of
minutes. -/
def parseZone : Bytes → Option (Int × Bytes)
  | [] => none
  | b :: rest =>
      if b.val = 90 then some (0, rest)
      else if b.val = 43 ∨ b.val = 45 then
        match twoDigitNum rest with
        | none => none
        | some (hh, r1) =>
            match expectLit [byte 58] r1 with
            | none => none
            | some r2 =>
                match twoDigitNum r2 with
                | none => none
                | some (mm, r3) =>
                    if hh < 24 ∧ mm < 60 then
                      some (if b.val = 45 then -(((hh * 60 + mm) * 60 : Nat) : Int)
                        else (((hh * 60 + mm) * 60 : Nat) : Int), r3)
                    else none
      else none

/-- The method `Time.UnmarshalJSON`: a quoted time in the layout of RFC 3339,
with the range checks of `time.Parse`. -/
def parseTime (input : Bytes) : Option (Time × Bytes) :=
  match expectLit [byte 34] input with
  | none => none
  | some r0 =>
  match twoDigitNum r0 with
  | none => none
  | some (cc, r1) =>
  match twoDigitNum r1 with
  | none => none
  | some (yy, r2) =>
  match expectLit [byte 45] r2 with
  | none => none
  | some r3 =>
  match twoDigitNum r3 with
  | none => none
  | some (month, r4) =>
  match expectLit [byte 45] r4 with
  | none => none
  | some r5 =>
  match twoDigitNum r5 with
  | none => none
  | some (day, r6) =>
  match expectLit [byte 84] r6 with
  | none => none
  | some r7 =>
  match twoDigitNum r7 with
  | none => none
  | some (hour, r8) =>
  match expectLit [byte 58] r8 with
  | none => none
  | some r9 =>
  match twoDigitNum r9 with
  | none => none
  | some (minute, r10) =>
  match expectLit [byte 58] r10 with
  | none => none
  | some r11 =>
  match twoDigitNum r11 with
  | none => none
  | some (second, r12) =>
  match parseZone (parseFraction r12).2 with
  | none => none
  | some (offset, r13) =>
  match expectLit [byte 34] r13 with
  | none => none
  | some r14 =>
      if 1 ≤ month ∧ month ≤ 12 ∧ 1 ≤ day ∧ day ≤ daysIn month (100 * cc + yy) ∧ hour < 24 ∧
          minute < 60 ∧ second < 60 then
        some (⟨((100 * cc + yy : Nat) : Int), month, day, hour, minute, second,
          (parseFraction r12).1, offset⟩, r14)
      else none

/-- The object of one record. -/
def parseFileInfo (fuel : Nat) (input : Bytes) : Option (FileInfo × Bytes) :=
  match expectLit (ascii "\x7b\"name\":") input with
  | none => none
  | some r0 =>
  match parseString fuel r0 with
  | none => none
  | some (name, r1) =>
  match expectLit (ascii ",\"size\":") r1 with
  | none => none
  | some r2 =>
  match parseInt r2 with
  | none => none
  | some (size, r3) =>
  match expectLit (ascii ",\"mode\":") r3 with
  | none => none
  | some r4 =>
  match parseNat r4 with
  | none => none
  | some (mode, r5) =>
  match expectLit (ascii ",\"modTime\":") r5 with
  | none => none
  | some r6 =>
  match parseTime r6 with
  | none => none
  | some (modTime, r7) =>
  match expectLit (ascii ",\"isDir\":") r7 with
  | none => none
  | some r8 =>
  match parseBool r8 with
  | none => none
  | some (isDir, r9) =>
  match expectLit (ascii "\x7d") r9 with
  | none => none
  | some r10 => some (⟨name, size, mode, modTime, isDir⟩, r10)

/-- The rest of an array after an element: a comma and the next element, or
the closing bracket (`n` bounds the number of elements). -/
def parseFileInfosTail (fuel : Nat) : Nat → Bytes → Option (List FileInfo × Bytes)
  | 0, _ => none
  | _ + 1, [] => none
  | n + 1, b :: rest =>
      if b.val = 93 then some ([], rest)
      else if b.val = 44 then
        match parseFileInfo fuel rest with
        | none => none
        | some (x, r1) =>
            match parseFileInfosTail fuel n r1 with
            | none => none
            | some (xs, r2) => some (x :: xs, r2)
      else none

/-- An array of records. -/
def parseFileInfos (fuel : Nat) : Bytes → Option (List FileInfo × Bytes)
  | b :: c :: rest =>
      if b.val = 91 then
        if c.val = 93 then some ([], rest)
        else
          match parseFileInfo fuel (c :: rest) with
          | none => none
          | some (x, r1) =>
              match parseFileInfosTail fuel fuel r1 with
              | none => none
              | some (xs, r2) => some (x :: xs, r2)
      else none
  | _ => none

/-- A value of the map: `null` for the nil slice, or an array of records. -/
def parseSlice (fuel : Nat) (input : Bytes) : Option (Slice × Bytes) :=
  match expectLit (ascii "null") input with
  | some r => some (.null, r)
  | none =>
      match parseFileInfos fuel input with
      | none => none
      | some (fis, r) => some (.items fis, r)

/-- One member of the outer object: the key, a colon, the value. -/
def parseEntry (fuel : Nat) (input : Bytes) : Option ((GoString × Slice) × Bytes) :=
  match parseString fuel input with
  | none => none
  | some (k, r1) =>
      match expectLit [byte 58] r1 with
      | none => none
      | some r2 =>
          match parseSlice fuel r2 with
          | none => none
          | some (v, r3) => some ((k, v), r3)

/-- The rest of the outer object after a member (`n` bounds the number of
members). -/
def parseEntriesTail (fuel : Nat) : Nat → Bytes → Option (List (GoString × Slice) × Bytes)
  | 0, _ => none
  | _ + 1, [] => none
  | n + 1, b :: rest =>
      if b.val = 125 then some ([], rest)
      else if b.val = 44 then
        match parseEntry fuel rest with
        | none => none
        | some (x, r1) =>
            match parseEntriesTail fuel n r1 with
            | none => none
            | some (xs, r2) => some (x :: xs, r2)
      else none

/-- The members of the outer object, in the order of the text. -/
def parseEntries (fuel : Nat) : Bytes → Option (List (GoString × Slice) × Bytes)
  | b :: c :: rest =>
      if b.val = 123 then
        if c.val = 125 then some ([], rest)
        else
          match parseEntry fuel (c :: rest) with
          | none => none
          | some (x, r1) =>
              match parseEntriesTail fuel fuel r1 with
              | none => none
              | some (xs, r2) => some (x :: xs, r2)
      else none
  | _ => none

/-- The function `json.Unmarshal` into a nil Cache: `null` leaves the map
nil; the members of an object are assigned to a new map one after another;
text after the value is an error. -/
def jsonUnmarshal (data : Bytes) : Option Cache :=
  if data = ascii "null" then some Cache.null
  else
    match parseEntries data.length data with
    | some (entries, []) => some (entries.foldl (fun c e => c.set e.1 e.2) Cache.empty)
    | _ => none

/-! ## compress/gzip -/

/-- The header fields of a gzip stream that the program sets or prints. -/
structure GzipHeader where
  Name : GoString
  Comment : GoString
  ModTime : Time

/-- The package compress/gzip: a writer that turns a header and a payload
into a stream (or fails), a reader that turns a stream into a header and a
payload (or fails), and the law that the reader gives back the payload of
what the writer wrote. -/
structure Gzip where
  compress : GzipHeader → Bytes → Option Bytes
  decompress : Bytes → Option (GzipHeader × Bytes)
  inverse : ∀ hdr payload stream, compress hdr payload = some stream →
    ∃ hdr1, decompress stream = some (hdr1, payload)

/-- A codec that keeps the payload as it is behind the two magic bytes of gzip
and drops the header; it stands in for the package where a run of the model
needs a concrete codec. -/
def Gzip.stored : Gzip where
  compress := fun _ payload => some (byte 0x1f :: byte 0x8b :: payload)
  decompress := fun stream =>
    match stream with
    | a :: b :: payload =>
        if a.val = 0x1f ∧ b.val = 0x8b then some (⟨[], [], Time.zero⟩, payload) else none
    | _ => none
  inverse := fun _ payload stream h => by
    simp only [Option.some.injEq] at h
    subst h
    exact ⟨⟨[], [], Time.zero⟩, rfl⟩

/-! ## Writing and reading the cache file -/

/-- The header Write gives the gzip stream. -/
def writeHeader (w : World) : GzipHeader :=
  ⟨ascii "cache.json", ascii "A cache file for github.com/slaxor/fileinfocache", w.now⟩

/-- The world after `os.OpenFile(fname, O_RDWR|O_CREATE|O_TRUNC, 0600)` and one
`f.Write(data)`: the file holds the bytes the destination had room for. -/
def World.written (w : World) (fname : GoString) (data : Bytes) : World :=
  { w with
    files := fun p => if p = fname then some (data.take w.room) else w.files p
    room := w.room - data.length }

/-- Write stores the Cache in a File.  (The result of `f.Write` is not looked
at.) -/
def Cache.Write (z : Gzip) (w : World) (c : Cache) (fname : GoString) : Except Stop World :=
  match jsonMarshal c with
  | none => .error (.fatal .marshal)
  | some output =>
      match z.compress (writeHeader w) output with
      | none => .error (.fatal .compress)
      | some buf =>
          if w.denied fname then .error (.fatal .create)
          else .ok (w.written fname buf)

/-- CacheFromFile reads a file and creates a Cache.  (The header lines it
prints are not part of the result.) -/
def CacheFromFile (z : Gzip) (w : World) (fname : GoString) : Except Stop Cache :=
  match w.files fname with
  | none => .error (.fatal .openFile)
  | some data =>
      match z.decompress data with
      | none => .error (.fatal .decompress)
      | some (_, buf) =>
          match jsonUnmarshal buf with
          | none => .error (.fatal .unmarshal)
          | some cache => .ok cache

/-! ## Walking the directory tree -/

/-- The function `filepath.Join(dir, name)` for a cleaned absolute `dir` and
the name of one of its entries: the two joined by one separator. -/
def Join (dir name : GoString) : GoString :=
  if dir = [byte 47] then byte 47 :: name else dir ++ byte 47 :: name

/-- The function handed to `filepath.Walk` by CacheFromDirRecursive, on the
records collected so far.  `info = none` is the nil `os.FileInfo` that Walk
passes when `Lstat` failed; `err` tells whether Walk passed an error.  The
result is the records and whether the function returned an error.  (The
progress line logged every 1000 records is not part of the result.) -/
def walkFn (fis : FileInfos) (path : GoString) (info : Option OsFileInfo) (err : Bool) :
    Except Stop (FileInfos × Bool) :=
  match info with
  | none => .error .panic
  | some info =>
      if info.isDir then .ok (fis, false)
      else .ok (fis ++ [{ NewFileInfo info with Name := path }], err)

/-- The function `filepath.Walk` below `path` with the function above: the
records collected and whether the walk was ended by an error. -/
def walk (path : GoString) : Node → FileInfos → Except Stop (FileInfos × Bool)
  | .file name size mode modTime, fis => walkFn fis path (some ⟨name, size, mode, modTime, false⟩) false
  | .lockedDir name size mode modTime, fis =>
      walkFn fis path (some ⟨name, size, mode, modTime, true⟩) true
  | .broken _, fis => walkFn fis path none true
  | .dir name size mode modTime entries, fis =>
      match walkFn fis path (some ⟨name, size, mode, modTime, true⟩) false with
      | .error s => .error s
      | .ok (fis1, true) => .ok (fis1, true)
      | .ok (fis1, false) => walkEntries path entries fis1
where
  /-- The loop of `walk` over the entries of the directory `dir`. -/
  walkEntries (dir : GoString) : List Node → FileInfos → Except Stop (FileInfos × Bool)
    | [], fis => .ok (fis, false)
    | n :: rest, fis =>
        match walk (Join dir n.name) n fis with
        | .error s => .error s
        | .ok (fis1, true) => .ok (fis1, true)
        | .ok (fis1, false) => walkEntries dir rest fis1

/-- CacheFromDirRecursive creates a Cache from a startDir and all subdirs.
(What `filepath.Walk` returns is not looked at.) -/
def CacheFromDirRecursive (w : World) (startDir : GoString) : Except Stop Cache :=
  match w.abs startDir with
  | none => .error (.fatal .abs)
  | some fullPath =>
      match walk fullPath (w.tree fullPath) [] with
      | .error s => .error s
      | .ok (fis, _) => NewCache w fis

/-- The number of entries of a tree that are not directories. -/
def Node.numFiles : Node → Nat
  | .file _ _ _ _ => 1
  | .dir _ _ _ _ entries => numFilesOf entries
  | .lockedDir _ _ _ _ => 0
  | .broken _ => 0
where
  /-- The same for a list of trees. -/
  numFilesOf : List Node → Nat
    | [] => 0
    | n :: rest => n.numFiles + numFilesOf rest

/-- The number of directories of a tree. -/
def Node.numDirs : Node → Nat
  | .file _ _ _ _ => 0
  | .dir _ _ _ _ entries => 1 + numDirsOf entries
  | .lockedDir _ _ _ _ => 1
  | .broken _ => 0
where
  /-- The same for a list of trees. -/
  numDirsOf : List Node → Nat
    | [] => 0
    | n :: rest => n.numDirs + numDirsOf rest

/-- Whether `Lstat` succeeds on every entry of a tree and every directory of it
can be listed. -/
def Node.readable : Node → Bool
  | .file _ _ _ _ => true
  | .dir _ _ _ _ entries => readableAll entries
  | .lockedDir _ _ _ _ => false
  | .broken _ => false
where
  /-- The same for a list of trees. -/
  readableAll : List Node → Bool
    | [] => true
    | n :: rest => n.readable && readableAll rest

/-- The full paths of the entries of a tree that are not directories, for the
tree found at `path`. -/
def Node.filePaths (path : GoString) : Node → List GoString
  | .file _ _ _ _ => [path]
  | .dir _ _ _ _ entries => filePathsOf path entries
  | .lockedDir _ _ _ _ => []
  | .broken _ => []
where
  /-- The same for the entries of the directory `dir`. -/
  filePathsOf (dir : GoString) : List Node → List GoString
    | [] => []
    | n :: rest => n.filePaths (Join dir n.name) ++ filePathsOf dir rest

/-- The records the walk collects for the tree found at `path`: one for each
entry that is not a directory, named by its full path, in the order of the
walk. -/
def Node.fileRecords (path : GoString) : Node → List FileInfo
  | .file _ size mode modTime => [⟨path, size, mode, modTime, false⟩]
  | .dir _ _ _ _ entries => fileRecordsOf path entries
  | .lockedDir _ _ _ _ => []
  | .broken _ => []
where
  /-- The same for the entries of the directory `dir`. -/
  fileRecordsOf (dir : GoString) : List Node → List FileInfo
    | [] => []
    | n :: rest => n.fileRecords (Join dir n.name) ++ fileRecordsOf dir rest

/-- The key under which a record is put: the hexadecimal MD5 digest of the
content of its file, when that can be read. -/
def digestKey (w : World) (fi : FileInfo) : Option GoString :=
  (w.files fi.Name).map (fun content => hexString (MD5.sum content))

/-! ## Predicates and texts of the statements -/

/-- A character the encoder writes as it is: printable ASCII other than the
quote, the backslash and `<`, `>`, `&`. -/
def plain (b : Byte) : Bool :=
  decide (0x20 ≤ b.val ∧ b.val < 0x80 ∧ b.val ≠ 34 ∧ b.val ≠ 92 ∧ b.val ≠ 60 ∧ b.val ≠ 62 ∧
    b.val ≠ 38)

/-- The input does not go on with a digit. -/
def noDigitAhead (rest : Bytes) : Prop := ∀ b ∈ rest.head?, isDigit b = false

/-- Whether the calendar fields of a time are those of a date and a clock
reading: a month of the year, a day of that month, and a time of day with
nanoseconds below one second.  Every `time.Time` reports such fields. -/
def Time.wellFormed (t : Time) : Bool :=
  decide (1 ≤ t.month ∧ t.month ≤ 12 ∧ 1 ≤ t.day ∧ t.day ≤ daysIn t.month (t.year % 400).toNat ∧
    t.hour < 24 ∧ t.minute < 60 ∧ t.second < 60 ∧ t.nano < 1000000000)

/-- Whether the RFC 3339 text carries the time: the year is in `0..9999` and
the zone offset is a whole number of minutes, less than 24 hours. -/
def Time.carried (t : Time) : Bool :=
  decide (0 ≤ t.year ∧ t.year < 10000 ∧ t.offset % 60 = 0 ∧ -86400 < t.offset ∧ t.offset < 86400)

/-- The number a sequence of decimal digits stands for. -/
def valOf (ds : List Nat) : Nat := ds.foldl (fun a d => 10 * a + d % 10) 0

/-- The text the encoder writes for a record whose time it can encode. -/
def recordText (fi : FileInfo) : Bytes :=
  ascii "\x7b\"name\":" ++ (quote fi.Name ++ (ascii ",\"size\":" ++ (decimalInt fi.Size ++
    (ascii ",\"mode\":" ++ (decimal fi.Mode ++ (ascii ",\"modTime\":" ++
      (byte 34 :: (rfc3339 fi.ModTime ++ [byte 34]) ++ (ascii ",\"isDir\":" ++
        ((if fi.IsDir then ascii "true" else ascii "false") ++ ascii "\x7d")))))))))

/-- The text the encoder writes for a sequence of such records. -/
def arrayText (fis : FileInfos) : Bytes := byte 91 :: (commaSep (fis.map recordText) ++ [byte 93])

/-- The text the encoder writes for a stored slice of such records. -/
def sliceText : Slice → Bytes
  | .null => ascii "null"
  | .items fis => arrayText fis

/-- The text the encoder writes for an entry of such records. -/
def entryText (e : GoString × Slice) : Bytes := quote e.1 ++ byte 58 :: sliceText e.2

/-- The text the encoder writes for entries of such records. -/
def cacheText (es : List (GoString × Slice)) : Bytes :=
  byte 123 :: (commaSep (es.map entryText) ++ [byte 125])

/-- The text the encoder writes for an Index of such records. -/
def indexText (c : Cache) : Bytes := if c.isNil then ascii "null" else cacheText c.entries

/-- A record the text carries: a name that is valid UTF-8, and a time with
calendar fields that the text carries. -/
def FileInfo.carried (fi : FileInfo) : Bool :=
  validUTF8 fi.Name && fi.ModTime.wellFormed && fi.ModTime.carried

/-- An entry the text carries: a key that is valid UTF-8 and records that the
text carries, all of them short of the fuel. -/
def entryFits (fuel : Nat) (e : GoString × Slice) : Prop :=
  validUTF8 e.1 = true ∧ e.1.length < fuel ∧ e.2.toList.length < fuel ∧
    ∀ fi ∈ e.2.toList, fi.carried = true ∧ fi.Name.length < fuel

/-- Whether the times of all records have the calendar fields of a date and
a clock reading. -/
def Cache.timesWellFormed (c : Cache) : Bool := c.records.all (fun fi => fi.ModTime.wellFormed)

/-- Whether the JSON text carries the Index: every key and every Name is valid
UTF-8, and every ModTime has a year in `0..9999` and a zone offset of whole
minutes, less than 24 hours. -/
def Cache.carried (c : Cache) : Bool :=
  c.keys.all validUTF8 && c.records.all (fun fi => validUTF8 fi.Name && fi.ModTime.carried)

/-! ## Concrete inputs -/

/-- A world with the file `Foo` of the tests, holding `Some Content`, a second
file `Bar` with the same content and a third `Baz` with another. -/
def fooWorld : World where
  files := fun p =>
    if p = ascii "Foo" then some (ascii "Some Content")
    else if p = ascii "Bar" then some (ascii "Some Content")
    else if p = ascii "Baz" then some (ascii "Other Content")
    else none
  abs := fun p => some (ascii "/tmp/" ++ p)
  tree := fun _ => .broken []
  denied := fun _ => false
  room := 4096
  now := Time.zero

/-- The record `FileInfo{Name: fname}` of the tests. -/
def named (fname : GoString) : FileInfo := ⟨fname, 0, 0, Time.zero, false⟩

/-- A world whose directory `/r` holds a directory `a` that cannot be listed
and, after it, a file `b` that can be read. -/
def lockedWorld : World where
  files := fun p => if p = ascii "/r/b" then some (ascii "Some Content") else none
  abs := fun p => some p
  tree := fun p =>
    if p = ascii "/r" then
      .dir (ascii "r") 4096 0o755 Time.zero
        [.lockedDir (ascii "a") 4096 0 Time.zero, .file (ascii "b") 12 0o644 Time.zero]
    else .broken p
  denied := fun _ => false
  room := 4096
  now := Time.zero

/-- A world whose destination accepts three more bytes. -/
def fullWorld : World where
  files := fun _ => none
  abs := fun p => some p
  tree := fun p => .broken p
  denied := fun _ => false
  room := 3
  now := Time.zero

/-- A world whose directory `/r` holds one regular file, `/r/b`, that cannot
be opened. -/
def sealedWorld : World where
  files := fun _ => none
  abs := fun p => some p
  tree := fun p =>
    if p = ascii "/r" then .dir (ascii "r") 4096 0o755 Time.zero [.file (ascii "b") 12 0 Time.zero]
    else .broken p
  denied := fun _ => false
  room := 4096
  now := Time.zero

/-- A world whose directory `/r` holds the file `a` and the directory `d`
with the file `b`; both files can be read and have the same content. -/
def treeWorld : World where
  files := fun p =>
    if p = ascii "/r/a" then some (ascii "Some Content")
    else if p = ascii "/r/d/b" then some (ascii "Some Content")
    else none
  abs := fun p => some (ascii "/" ++ p)
  tree := fun p =>
    if p = ascii "/r" then
      .dir (ascii "r") 4096 0o755 Time.zero
        [.file (ascii "a") 12 0o644 Time.zero,
         .dir (ascii "d") 4096 0o755 Time.zero [.file (ascii "b") 12 0o600 Time.zero]]
    else .broken p
  denied := fun _ => false
  room := 4096
  now := Time.zero

/-- The Index of the tests: the one record `Foo` under the key of its
content. -/
def fooCache : Cache :=
  Cache.ofEntries [(ascii "78138d2003f1a87043d65c692fb3a64b", .items [named (ascii "Foo")])]
    (by simp [KeysAscending])

/-- An Index with one record whose ModTime is in the year 10000. -/
def lateCache : Cache :=
  Cache.ofEntries [(ascii "78138d2003f1a87043d65c692fb3a64b",
    .items [⟨ascii "Foo", 0, 0, ⟨10000, 1, 1, 0, 0, 0, 0, 0⟩, false⟩])] (by simp [KeysAscending])

/-- An Index with one record whose Name is the single byte `0xff`, which is
not valid UTF-8. -/
def rawCache : Cache :=
  Cache.ofEntries [(ascii "k", .items [named [byte 0xff]])] (by simp [KeysAscending])

/-- The same Index with the Name replaced by the encoding of U+FFFD. -/
def replacedCache : Cache :=
  Cache.ofEntries [(ascii "k", .items [named [byte 0xef, byte 0xbf, byte 0xbd]])]
    (by simp [KeysAscending])

/-- The Index `Cache{"k": nil}`: one key, whose sequence is the nil slice. -/
def nilSliceCache : Cache := Cache.ofEntries [(ascii "k", .null)] (by simp [KeysAscending])

/-! # Lemmas -/

/-! ## Facts about the finite map -/

theorem findEntry_setEntry_self (k : GoString) (v : Slice) (l : List (GoString × Slice)) :
    findEntry k (setEntry k v l) = some v := by
  induction l with
  | nil => simp [setEntry, findEntry]
  | cons e rest ih =>
      simp only [setEntry]
      split
      · simp [findEntry]
      · rename_i hk
        split
        · simp [findEntry]
        · simp only [findEntry, if_neg hk]
          exact ih

theorem findEntry_setEntry_other (k k' : GoString) (v : Slice)
    (l : List (GoString × Slice)) (h : k' ≠ k) :
    findEntry k' (setEntry k v l) = findEntry k' l := by
  induction l with
  | nil => simp [setEntry, findEntry, h]
  | cons e rest ih =>
      simp only [setEntry]
      split
      · rename_i hk
        have h2 : k' ≠ e.1 := by rw [← hk]; exact h
        simp [findEntry, h, h2]
      · split
        · simp [findEntry, h]
        · simp only [findEntry]
          split
          · rfl
          · exact ih

theorem Cache.get_set_self (c : Cache) (k : GoString) (v : Slice) :
    (c.set k v).get k = v.toList := by
  simp [Cache.get, Cache.set, findEntry_setEntry_self]

theorem Cache.has_set_self (c : Cache) (k : GoString) (v : Slice) : (c.set k v).has k = true := by
  simp [Cache.has, Cache.set, findEntry_setEntry_self]

theorem Cache.get_set_other (c : Cache) (k k' : GoString) (v : Slice) (h : k' ≠ k) :
    (c.set k v).get k' = c.get k' := by
  simp [Cache.get, Cache.set, findEntry_setEntry_other k k' v c.entries h]

theorem Cache.has_set_other (c : Cache) (k k' : GoString) (v : Slice) (h : k' ≠ k) :
    (c.set k v).has k' = c.has k' := by
  simp [Cache.has, Cache.set, findEntry_setEntry_other k k' v c.entries h]

theorem Cache.get_of_not_has (c : Cache) (k : GoString) (h : c.has k = false) : c.get k = [] := by
  unfold Cache.has at h
  unfold Cache.get
  cases hf : findEntry k c.entries with
  | none => rfl
  | some v => rw [hf] at h; exact Bool.noConfusion h

theorem findEntry_isSome_iff (k : GoString) (l : List (GoString × Slice)) :
    (findEntry k l).isSome = true ↔ k ∈ l.map Prod.fst := by
  induction l with
  | nil => simp [findEntry]
  | cons e rest ih =>
      simp only [findEntry, List.map_cons, List.mem_cons]
      split
      · rename_i hk
        simp [hk]
      · rename_i hk
        rw [ih]
        constructor
        · exact Or.inr
        · rintro (h | h)
          · exact absurd h hk
          · exact h

theorem Cache.has_iff_mem_keys (c : Cache) (k : GoString) : c.has k = true ↔ k ∈ c.keys :=
  findEntry_isSome_iff k c.entries

theorem Cache.keys_pairwise (c : Cache) : c.keys.Pairwise (fun a b => strLt a b = true) := by
  unfold Cache.keys
  rw [List.pairwise_map]
  exact c.ascending

theorem keys_eq_of_same_members : ∀ (l1 l2 : List GoString),
    l1.Pairwise (fun a b => strLt a b = true) → l2.Pairwise (fun a b => strLt a b = true) →
    (∀ k, k ∈ l1 ↔ k ∈ l2) → l1 = l2
  | [], [], _, _, _ => rfl
  | [], y :: ys, _, _, h => by
      have := (h y).2 (List.mem_cons_self _ _)
      simp at this
  | x :: xs, [], _, _, h => by
      have := (h x).1 (List.mem_cons_self _ _)
      simp at this
  | x :: xs, y :: ys, h1, h2, h => by
      have p1 := List.pairwise_cons.1 h1
      have p2 := List.pairwise_cons.1 h2
      have hxy : x = y := by
        by_contra hne
        have hx : x ∈ ys := by
          rcases List.mem_cons.1 ((h x).1 (List.mem_cons_self _ _)) with e | e
          · exact absurd e hne
          · exact e
        have hy : y ∈ xs := by
          rcases List.mem_cons.1 ((h y).2 (List.mem_cons_self _ _)) with e | e
          · exact absurd e.symm hne
          · exact e
        have a := p1.1 y hy
        have b := p2.1 x hx
        have := strLt_trans _ _ _ a b
        rw [strLt_irrefl] at this
        exact Bool.noConfusion this
      subst hxy
      have hrest : ∀ k, k ∈ xs ↔ k ∈ ys := by
        intro k
        constructor
        · intro hk
          rcases List.mem_cons.1 ((h k).1 (List.mem_cons_of_mem _ hk)) with e | e
          · exact absurd e (strLt_ne (p1.1 k hk)).symm
          · exact e
        · intro hk
          rcases List.mem_cons.1 ((h k).2 (List.mem_cons_of_mem _ hk)) with e | e
          · exact absurd e (strLt_ne (p2.1 k hk)).symm
          · exact e
      rw [keys_eq_of_same_members xs ys p1.2 p2.2 hrest]

theorem makeKey_eq (w : World) (c : Cache) (fi : FileInfo) (content : Bytes)
    (h : w.files fi.Name = some content) :
    c.makeKey w fi = .ok (hexString (MD5.sum content)) := by
  simp [Cache.makeKey, h]

theorem Insert_eq (w : World) (c : Cache) (fi : FileInfo) (content : Bytes)
    (h : w.files fi.Name = some content) (hn : c.isNil = false) :
    c.Insert w fi = .ok (c.set (hexString (MD5.sum content))
      (.items (c.get (hexString (MD5.sum content)) ++ [fi]))) := by
  simp [Cache.Insert, makeKey_eq w c fi content h, hn]

theorem insertAll_spec (w : World) : ∀ (l : List FileInfo) (c : Cache), c.isNil = false →
    (∀ fi ∈ l, (w.files fi.Name).isSome = true) →
    ∃ c1, insertAll w c l = .ok c1 ∧
      (∀ k, c1.get k = c.get k ++ l.filter (fun fi => decide (digestKey w fi = some k))) ∧
      (∀ k, c1.has k = (c.has k || l.any (fun fi => decide (digestKey w fi = some k))))
  | [], c, _, _ => ⟨c, rfl, by simp, by simp⟩
  | fi :: rest, c, hn, h => by
      have hfi := h fi (List.mem_cons_self _ _)
      obtain ⟨content, hc⟩ := Option.isSome_iff_exists.1 hfi
      obtain ⟨c1, h1, h2, h3⟩ := insertAll_spec w rest
        (c.set (hexString (MD5.sum content))
          (.items (c.get (hexString (MD5.sum content)) ++ [fi]))) rfl
        (fun x hx => h x (List.mem_cons_of_mem _ hx))
      refine ⟨c1, ?_, ?_, ?_⟩
      · simp only [insertAll, Insert_eq w c fi content hc hn]
        exact h1
      · intro k
        rw [h2 k]
        by_cases hk : k = hexString (MD5.sum content)
        · subst hk
          simp [Cache.get_set_self, Slice.toList, digestKey, hc, List.filter_cons]
        · have hk2 : ¬ (hexString (MD5.sum content) = k) := fun e => hk e.symm
          simp [Cache.get_set_other _ _ _ _ hk, digestKey, hc, List.filter_cons, hk2]
      · intro k
        rw [h3 k]
        by_cases hk : k = hexString (MD5.sum content)
        · subst hk
          simp [Cache.has_set_self, digestKey, hc]
        · have hk2 : ¬ (hexString (MD5.sum content) = k) := fun e => hk e.symm
          simp [Cache.has_set_other _ _ _ _ hk, digestKey, hc, hk2]

theorem Cache.get_empty (k : GoString) : Cache.empty.get k = [] := rfl

theorem Cache.has_empty (k : GoString) : Cache.empty.has k = false := rfl

theorem NewCache_spec (w : World) (l : List FileInfo)
    (h : ∀ fi ∈ l, (w.files fi.Name).isSome = true) :
    ∃ c, NewCache w l = .ok c ∧
      (∀ k, c.get k = l.filter (fun fi => decide (digestKey w fi = some k))) ∧
      (∀ k, c.has k = l.any (fun fi => decide (digestKey w fi = some k))) := by
  obtain ⟨c, h1, h2, h3⟩ := insertAll_spec w l Cache.empty rfl h
  exact ⟨c, h1, fun k => by rw [h2 k, Cache.get_empty, List.nil_append],
    fun k => by rw [h3 k, Cache.has_empty, Bool.false_or]⟩

/-! ## Keys -/

theorem le_length (n x : Nat) : (MD5.le n x).length = n := by
  induction n generalizing x with
  | zero => rfl
  | succ n ih => simp [MD5.le, ih]

theorem sum_length (msg : Bytes) : (MD5.sum msg).length = 16 := by
  simp [MD5.sum, le_length]

theorem hexString_length (b : Bytes) : (hexString b).length = 2 * b.length := by
  induction b with
  | nil => rfl
  | cons x xs ih => simp only [hexString, List.length_cons, ih]; omega

theorem hexDigit_val (n : Nat) (h : n < 16) :
    (hexDigit n).val = if n < 10 then 48 + n else 87 + n := by
  unfold hexDigit byte
  split
  · show (48 + n) % 256 = 48 + n
    omega
  · show (87 + n) % 256 = 87 + n
    omega

theorem hexDigit_lower (n : Nat) (h : n < 16) :
    (48 ≤ (hexDigit n).val ∧ (hexDigit n).val ≤ 57) ∨
      (97 ≤ (hexDigit n).val ∧ (hexDigit n).val ≤ 102) := by
  rw [hexDigit_val n h]
  split <;> omega

theorem hexDigit_inj (n m : Nat) (hn : n < 16) (hm : m < 16) (h : hexDigit n = hexDigit m) :
    n = m := by
  have h1 := congrArg Fin.val h
  rw [hexDigit_val n hn, hexDigit_val m hm] at h1
  split at h1 <;> split at h1 <;> omega

theorem hexString_lower (b : Bytes) :
    ∀ x ∈ hexString b, (48 ≤ x.val ∧ x.val ≤ 57) ∨ (97 ≤ x.val ∧ x.val ≤ 102) := by
  induction b with
  | nil => intro x hx; simp [hexString] at hx
  | cons y ys ih =>
      intro x hx
      simp only [hexString, List.mem_cons] at hx
      rcases hx with hx | hx | hx
      · rw [hx]; exact hexDigit_lower _ (by omega)
      · rw [hx]; exact hexDigit_lower _ (Nat.mod_lt _ (by decide))
      · exact ih x hx

theorem hexString_inj : ∀ (a b : Bytes), hexString a = hexString b → a = b
  | [], [], _ => rfl
  | [], _ :: _, h => by simp [hexString] at h
  | _ :: _, [], h => by simp [hexString] at h
  | x :: xs, y :: ys, h => by
      simp only [hexString, List.cons.injEq] at h
      have h1 := hexDigit_inj _ _ (by omega) (by omega) h.1
      have h2 := hexDigit_inj _ _ (Nat.mod_lt _ (by decide)) (Nat.mod_lt _ (by decide)) h.2.1
      have hxy : x = y := Fin.ext (by omega)
      rw [hxy, hexString_inj xs ys h.2.2]

/-! ## The walk -/

mutual
theorem fileRecords_names : ∀ (t : Node) (path : GoString),
    (t.fileRecords path).map FileInfo.Name = t.filePaths path
  | .file _ _ _ _, _ => rfl
  | .dir _ _ _ _ entries, path => by
      simp only [Node.fileRecords, Node.filePaths]
      exact fileRecordsOf_names entries path
  | .lockedDir _ _ _ _, _ => rfl
  | .broken _, _ => rfl
theorem fileRecordsOf_names : ∀ (l : List Node) (dir : GoString),
    (Node.fileRecords.fileRecordsOf dir l).map FileInfo.Name = Node.filePaths.filePathsOf dir l
  | [], _ => rfl
  | n :: rest, dir => by
      simp only [Node.fileRecords.fileRecordsOf, Node.filePaths.filePathsOf, List.map_append]
      rw [fileRecords_names n, fileRecordsOf_names rest]
end

mutual
theorem fileRecords_length : ∀ (t : Node) (path : GoString),
    (t.fileRecords path).length = t.numFiles
  | .file _ _ _ _, _ => rfl
  | .dir _ _ _ _ entries, path => by
      simp only [Node.fileRecords, Node.numFiles]
      exact fileRecordsOf_length entries path
  | .lockedDir _ _ _ _, _ => rfl
  | .broken _, _ => rfl
theorem fileRecordsOf_length : ∀ (l : List Node) (dir : GoString),
    (Node.fileRecords.fileRecordsOf dir l).length = Node.numFiles.numFilesOf l
  | [], _ => rfl
  | n :: rest, dir => by
      simp only [Node.fileRecords.fileRecordsOf, Node.numFiles.numFilesOf, List.length_append]
      rw [fileRecords_length n, fileRecordsOf_length rest]
end

mutual
theorem fileRecords_notDir : ∀ (t : Node) (path : GoString),
    ∀ r ∈ t.fileRecords path, r.IsDir = false
  | .file _ _ _ _, _ => by
      intro r hr
      simp only [Node.fileRecords, List.mem_singleton] at hr
      rw [hr]
  | .dir _ _ _ _ entries, path => by
      simp only [Node.fileRecords]
      exact fileRecordsOf_notDir entries path
  | .lockedDir _ _ _ _, _ => by simp [Node.fileRecords]
  | .broken _, _ => by simp [Node.fileRecords]
theorem fileRecordsOf_notDir : ∀ (l : List Node) (dir : GoString),
    ∀ r ∈ Node.fileRecords.fileRecordsOf dir l, r.IsDir = false
  | [], _ => by simp [Node.fileRecords.fileRecordsOf]
  | n :: rest, dir => by
      intro r hr
      simp only [Node.fileRecords.fileRecordsOf, List.mem_append] at hr
      rcases hr with hr | hr
      · exact fileRecords_notDir n _ r hr
      · exact fileRecordsOf_notDir rest dir r hr
end

mutual
theorem walk_readable : ∀ (t : Node) (path : GoString) (fis : FileInfos), t.readable = true →
    walk path t fis = .ok (fis ++ t.fileRecords path, false)
  | .file _ _ _ _, _, _, _ => rfl
  | .dir _ _ _ _ entries, path, fis, h => by
      simp only [Node.readable] at h
      simp only [walk, walkFn, Node.fileRecords, if_true]
      exact walkEntries_readable entries path fis h
  | .lockedDir _ _ _ _, _, _, h => by simp [Node.readable] at h
  | .broken _, _, _, h => by simp [Node.readable] at h
theorem walkEntries_readable : ∀ (l : List Node) (dir : GoString) (fis : FileInfos),
    Node.readable.readableAll l = true →
    walk.walkEntries dir l fis = .ok (fis ++ Node.fileRecords.fileRecordsOf dir l, false)
  | [], _, _, _ => by simp [walk.walkEntries, Node.fileRecords.fileRecordsOf]
  | n :: rest, dir, fis, h => by
      simp only [Node.readable.readableAll, Bool.and_eq_true] at h
      simp only [walk.walkEntries, walk_readable n _ fis h.1, Node.fileRecords.fileRecordsOf]
      rw [walkEntries_readable rest dir _ h.2, List.append_assoc]
end

/-! ## All records of an Index -/

theorem findEntry_none_of_lt (k : GoString) (e : GoString × Slice)
    (rest : List (GoString × Slice)) (h : KeysAscending (e :: rest))
    (hlt : strLt k e.1 = true) : findEntry k rest = none := by
  cases hf : findEntry k rest with
  | none => rfl
  | some v =>
      have hmem : k ∈ rest.map Prod.fst := (findEntry_isSome_iff k rest).1 (by rw [hf]; rfl)
      obtain ⟨x, hx, hxk⟩ := List.mem_map.1 hmem
      have h1 := (List.pairwise_cons.1 h).1 x hx
      rw [hxk] at h1
      have h2 := strLt_trans _ _ _ hlt h1
      rw [strLt_irrefl] at h2
      exact Bool.noConfusion h2

theorem records_setEntry (k : GoString) (fi : FileInfo) : ∀ (l : List (GoString × Slice)),
    KeysAscending l →
    ((setEntry k (.items (((findEntry k l).map Slice.toList).getD [] ++ [fi])) l).map
        (fun e => e.2.toList)).flatten.Perm
      (fi :: (l.map (fun e => e.2.toList)).flatten)
  | [], _ => by simp [setEntry, findEntry, Slice.toList]
  | e :: rest, h => by
      by_cases hk : k = e.1
      · simp only [setEntry, findEntry, if_pos hk, Option.map_some', Option.getD_some,
          List.map_cons, List.flatten_cons, List.append_assoc, List.singleton_append,
          Slice.toList]
        exact List.perm_middle
      · simp only [setEntry, findEntry, if_neg hk]
        split
        · rename_i hlt
          rw [findEntry_none_of_lt k e rest h hlt]
          simp [Slice.toList]
        · simp only [List.map_cons, List.flatten_cons]
          have ih := records_setEntry k fi rest (List.pairwise_cons.1 h).2
          exact ((List.Perm.append_left e.2.toList ih).trans List.perm_middle)

theorem insertAll_records (w : World) : ∀ (l : List FileInfo) (c : Cache), c.isNil = false →
    (∀ fi ∈ l, (w.files fi.Name).isSome = true) →
    ∃ c1, insertAll w c l = .ok c1 ∧ c1.records.Perm (c.records ++ l)
  | [], c, _, _ => ⟨c, rfl, by simp⟩
  | fi :: rest, c, hn, h => by
      obtain ⟨content, hc⟩ := Option.isSome_iff_exists.1 (h fi (List.mem_cons_self _ _))
      obtain ⟨c1, h1, h2⟩ := insertAll_records w rest
        (c.set (hexString (MD5.sum content))
          (.items (c.get (hexString (MD5.sum content)) ++ [fi]))) rfl
        (fun x hx => h x (List.mem_cons_of_mem _ hx))
      refine ⟨c1, ?_, ?_⟩
      · simp only [insertAll, Insert_eq w c fi content hc hn]
        exact h1
      · refine h2.trans ?_
        have hs : (c.set (hexString (MD5.sum content))
            (.items (c.get (hexString (MD5.sum content)) ++ [fi]))).records.Perm
              (fi :: c.records) :=
          records_setEntry _ fi c.entries c.ascending
        exact (List.Perm.append_right rest hs).trans (by
          simpa using (@List.perm_middle _ fi c.records rest).symm)

/-! ## The encoder writes the document of the specification -/

theorem pieces_ascii : ∀ (s : Bytes) (n : Nat), s.length ≤ n → (∀ b ∈ s, b.val < 0x80) →
    pieces n s = s.map (fun b => [b])
  | [], 0, _, _ => rfl
  | [], _ + 1, _, _ => rfl
  | b :: rest, 0, h, _ => by simp at h
  | b :: rest, n + 1, h, hs => by
      have hb : b.val < 0x80 := hs b (List.mem_cons_self _ _)
      have hlen : utf8Len (b :: rest) = 1 := by simp [utf8Len, hb]
      simp only [pieces, hlen, List.map_cons]
      rw [show max 1 1 = 1 from rfl]
      simp only [List.take_succ_cons, List.take_zero, List.drop_succ_cons, List.drop_zero]
      rw [pieces_ascii rest n (by simpa using h) (fun x hx => hs x (List.mem_cons_of_mem _ hx))]

theorem quotePiece_plain (b : Byte) (h : plain b = true) : quotePiece [b] = [b] := by
  simp only [plain, decide_eq_true_eq] at h
  have h1 : ¬ (b.val = 34 ∨ b.val = 92) := by omega
  have h2 : ¬ (b.val < 0x20 ∨ b.val = 60 ∨ b.val = 62 ∨ b.val = 38) := by omega
  have h3 : ¬ b.val = 10 := by omega
  have h4 : ¬ b.val = 13 := by omega
  have h5 : ¬ b.val = 9 := by omega
  simp only [quotePiece, h.2.1, if_true, if_neg h1, if_neg h2, if_neg h3, if_neg h4, if_neg h5]

theorem quote_plain (s : Bytes) (h : ∀ b ∈ s, plain b = true) :
    quote s = byte 34 :: (s ++ [byte 34]) := by
  have hascii : ∀ b ∈ s, b.val < 0x80 := by
    intro b hb
    have := h b hb
    simp only [plain, decide_eq_true_eq] at this
    exact this.2.1
  have hflat : ∀ l : Bytes, (∀ b ∈ l, plain b = true) →
      ((l.map (fun b => [b])).map quotePiece).flatten = l := by
    intro l
    induction l with
    | nil => intro _; rfl
    | cons x xs ih =>
        intro hl
        simp only [List.map_cons, List.flatten_cons,
          quotePiece_plain x (hl x (List.mem_cons_self _ _))]
        rw [ih (fun b hb => hl b (List.mem_cons_of_mem _ hb))]
        rfl
  unfold quote
  rw [pieces_ascii s s.length (Nat.le_refl _) hascii, hflat s h]

theorem plain_digit (n : Nat) : plain (digit n) = true := by
  simp only [plain, digit, byte, decide_eq_true_eq]
  omega

theorem plain_twoDigits (n : Nat) : ∀ b ∈ twoDigits n, plain b = true := by
  intro b hb
  simp only [twoDigits, List.mem_cons, List.mem_singleton, List.not_mem_nil, or_false] at hb
  rcases hb with hb | hb <;> rw [hb] <;> exact plain_digit _

theorem plain_fourDigits (n : Nat) : ∀ b ∈ fourDigits n, plain b = true := by
  intro b hb
  simp only [fourDigits, List.mem_cons, List.mem_singleton, List.not_mem_nil, or_false] at hb
  rcases hb with hb | hb | hb | hb <;> rw [hb] <;> exact plain_digit _

theorem plain_fraction (n : Nat) : ∀ b ∈ fraction n, plain b = true := by
  intro b hb
  unfold fraction at hb
  split at hb
  · simp at hb
  · rcases List.mem_cons.1 hb with hb | hb
    · rw [hb]; decide
    · obtain ⟨d, _, hd⟩ := List.mem_map.1 hb
      rw [← hd]
      exact plain_digit _

theorem plain_zone (o : Int) : ∀ b ∈ zone o, plain b = true := by
  intro b hb
  unfold zone at hb
  split at hb
  · simp only [List.mem_singleton] at hb
    rw [hb]; decide
  · simp only [List.mem_cons, List.mem_append] at hb
    rcases hb with hb | hb | hb | hb
    · rw [hb]; split <;> decide
    · exact plain_twoDigits _ b hb
    · rw [hb]; decide
    · exact plain_twoDigits _ b hb

theorem plain_rfc3339 (t : Time) : ∀ b ∈ rfc3339 t, plain b = true := by
  intro b hb
  simp only [rfc3339, List.mem_append, List.mem_cons] at hb
  rcases hb with hb | hb | hb | hb | hb | hb | hb | hb | hb | hb | hb | hb | hb
  · exact plain_fourDigits _ b hb
  · rw [hb]; decide
  · exact plain_twoDigits _ b hb
  · rw [hb]; decide
  · exact plain_twoDigits _ b hb
  · rw [hb]; decide
  · exact plain_twoDigits _ b hb
  · rw [hb]; decide
  · exact plain_twoDigits _ b hb
  · rw [hb]; decide
  · exact plain_twoDigits _ b hb
  · exact plain_fraction _ b hb
  · exact plain_zone _ b hb

theorem MarshalJSON_eq (t : Time) (h : 0 ≤ t.year ∧ t.year < 10000) :
    t.MarshalJSON = some (quote (rfc3339 t)) := by
  have h1 : ¬ (t.year < 0 ∨ 10000 ≤ t.year) := by omega
  rw [Time.MarshalJSON, if_neg h1, quote_plain _ (plain_rfc3339 t)]

theorem decimalInt_natCast (n : Nat) : decimalInt (n : Int) = decimal n := by
  have h : ¬ ((n : Int) < 0) := by omega
  simp [decimalInt, h]

theorem marshalFileInfo_eq (fi : FileInfo) (h : 0 ≤ fi.ModTime.year ∧ fi.ModTime.year < 10000) :
    marshalFileInfo fi = some fi.toJson.render := by
  have e1 : ascii "\x7b\"name\":" = byte 123 :: (quote (ascii "name") ++ [byte 58]) := by decide!
  have e2 : ascii ",\"size\":" = byte 44 :: (quote (ascii "size") ++ [byte 58]) := by decide!
  have e3 : ascii ",\"mode\":" = byte 44 :: (quote (ascii "mode") ++ [byte 58]) := by decide!
  have e4 : ascii ",\"modTime\":" = byte 44 :: (quote (ascii "modTime") ++ [byte 58]) := by decide!
  have e5 : ascii ",\"isDir\":" = byte 44 :: (quote (ascii "isDir") ++ [byte 58]) := by decide!
  have e6 : ascii "\x7d" = [byte 125] := by decide!
  simp only [marshalFileInfo, MarshalJSON_eq _ h, FileInfo.toJson, Json.render,
    Json.render.renderMembers, commaSep, decimalInt_natCast, e1, e2, e3, e4, e5, e6,
    List.append_assoc, List.cons_append, List.nil_append, List.singleton_append]

theorem allSome_map_eq {α : Type} (f : α → Option Bytes) (g : α → Bytes) :
    ∀ (l : List α), (∀ x ∈ l, f x = some (g x)) → allSome (l.map f) = some (l.map g)
  | [], _ => rfl
  | x :: rest, h => by
      simp only [List.map_cons, h x (List.mem_cons_self _ _), allSome,
        allSome_map_eq f g rest (fun y hy => h y (List.mem_cons_of_mem _ hy))]

theorem renderItems_map {α : Type} (f : α → Json) : ∀ (l : List α),
    Json.render.renderItems (l.map f) = l.map (fun x => (f x).render)
  | [] => rfl
  | x :: rest => by
      simp only [List.map_cons, Json.render.renderItems, renderItems_map f rest]

theorem renderMembers_map {α : Type} (k : α → GoString) (f : α → Json) : ∀ (l : List α),
    Json.render.renderMembers (l.map (fun x => (k x, f x))) =
      l.map (fun x => quote (k x) ++ byte 58 :: (f x).render)
  | [] => rfl
  | x :: rest => by
      simp only [List.map_cons, Json.render.renderMembers, renderMembers_map k f rest]

theorem marshalFileInfos_eq (v : Slice)
    (h : ∀ fi ∈ v.toList, 0 ≤ fi.ModTime.year ∧ fi.ModTime.year < 10000) :
    marshalFileInfos v = some v.toJson.render := by
  cases v with
  | null => rfl
  | items fis =>
      simp only [marshalFileInfos, Slice.toJson,
        allSome_map_eq marshalFileInfo (fun fi => fi.toJson.render) fis
          (fun fi hfi => marshalFileInfo_eq fi (h fi hfi)),
        Json.render, renderItems_map]

theorem mem_records_of_mem_entry (c : Cache) (e : GoString × Slice) (he : e ∈ c.entries)
    (fi : FileInfo) (hfi : fi ∈ e.2.toList) : fi ∈ c.records := by
  unfold Cache.records
  exact List.mem_flatten.2 ⟨e.2.toList, List.mem_map_of_mem (fun e => e.2.toList) he, hfi⟩

theorem jsonMarshal_eq (c : Cache)
    (h : ∀ fi ∈ c.records, 0 ≤ fi.ModTime.year ∧ fi.ModTime.year < 10000) :
    jsonMarshal c = some c.toJson.render := by
  have he : ∀ e ∈ c.entries, marshalEntry e = some (quote e.1 ++ byte 58 :: e.2.toJson.render) := by
    intro e hmem
    simp only [marshalEntry,
      marshalFileInfos_eq e.2 (fun fi hfi => h fi (mem_records_of_mem_entry c e hmem fi hfi))]
  unfold jsonMarshal Cache.toJson
  by_cases hn : c.isNil = true
  · rw [if_pos hn, if_pos hn]
    rfl
  · rw [if_neg hn, if_neg hn]
    simp only [allSome_map_eq marshalEntry _ c.entries he, Json.render,
      renderMembers_map (fun e : GoString × Slice => e.1) (fun e => e.2.toJson)]

/-! ## The decoder reads back what the encoder wrote: strings -/

theorem pieces_flatten : ∀ (n : Nat) (s : Bytes), s.length ≤ n → (pieces n s).flatten = s
  | 0, [], _ => rfl
  | 0, _ :: _, h => by simp at h
  | _ + 1, [], _ => rfl
  | n + 1, b :: rest, h => by
      simp only [pieces, List.flatten_cons]
      rw [pieces_flatten n _ (by
        simp only [List.length_drop, List.length_cons] at h ⊢
        omega)]
      exact List.take_append_drop _ _

theorem utf8Len_le (s : Bytes) : utf8Len s ≤ 4 := by
  unfold utf8Len
  repeat' split
  all_goals omega

theorem utf8Len_append (p t : Bytes) (hp : p ≠ []) (h : utf8Len p = p.length) :
    utf8Len (p ++ t) = p.length := by
  match p, hp, h with
  | [b0], _, h =>
      simp only [utf8Len, List.length_singleton] at h
      simp only [List.singleton_append, utf8Len, List.length_singleton]
      split
      · rfl
      · rename_i h1
        rw [if_neg h1] at h
        repeat' split at h
        all_goals omega
  | [b0, b1], _, h =>
      simp only [utf8Len, List.length_cons, List.length_nil] at h
      simp only [List.cons_append, List.nil_append, utf8Len, List.length_cons, List.length_nil]
      repeat' split at h
      all_goals first | omega | skip
      all_goals simp_all
      all_goals (repeat' split)
      all_goals omega
  | [b0, b1, b2], _, h =>
      simp only [utf8Len, List.length_cons, List.length_nil] at h
      simp only [List.cons_append, List.nil_append, utf8Len, List.length_cons, List.length_nil]
      repeat' split at h
      all_goals first | omega | skip
      all_goals simp_all
      all_goals (repeat' split)
      all_goals omega
  | [b0, b1, b2, b3], _, h =>
      simp only [utf8Len, List.length_cons, List.length_nil] at h
      simp only [List.cons_append, List.nil_append, utf8Len, List.length_cons, List.length_nil]
      repeat' split at h
      all_goals first | omega | skip
      all_goals simp_all
      all_goals (repeat' split)
      all_goals omega
  | b0 :: b1 :: b2 :: b3 :: b4 :: rest, _, h =>
      have := utf8Len_le (b0 :: b1 :: b2 :: b3 :: b4 :: rest)
      simp only [List.length_cons] at h
      omega

theorem hexVal_hexOf (n : Nat) : hexVal (hexOf n) = some (n % 16) := by
  have h := hexDigit_val (n % 16) (Nat.mod_lt _ (by decide))
  unfold hexVal hexOf
  rw [h]
  split
  · rename_i h10
    have c1 : 48 ≤ 48 + n % 16 ∧ 48 + n % 16 ≤ 57 := by omega
    rw [if_pos c1]
    congr 1
    omega
  · rename_i h10
    have c1 : ¬ (48 ≤ 87 + n % 16 ∧ 87 + n % 16 ≤ 57) := by omega
    have c2 : 97 ≤ 87 + n % 16 ∧ 87 + n % 16 ≤ 102 := by omega
    rw [if_neg c1, if_pos c2]
    congr 1
    omega

theorem byte_val (b : Byte) : byte b.val = b := by
  apply Fin.ext
  show b.val % 256 = b.val
  omega

theorem wellFormed_single (b : Byte) (h : wellFormed [b] = true) : b.val < 0x80 := by
  simp only [wellFormed, utf8Len, List.length_singleton, decide_eq_true_eq] at h
  by_contra hc
  rw [if_neg hc] at h
  have := h.2
  repeat' split at this
  all_goals omega

theorem stringItem_u (a b c d : Byte) (t : Bytes) (x y z u : Nat)
    (ha : hexVal a = some x) (hb : hexVal b = some y) (hc : hexVal c = some z)
    (hd : hexVal d = some u)
    (hns : ¬ (0xD800 ≤ 4096 * x + 256 * y + 16 * z + u ∧ 4096 * x + 256 * y + 16 * z + u < 0xE000)) :
    stringItem (byte 92 :: byte 117 :: a :: b :: c :: d :: t) =
      some (encodeRune (4096 * x + 256 * y + 16 * z + u), t) := by
  have k1 : (byte 92).val = 92 := rfl
  have k2 : ¬ ((byte 117).val = 34 ∨ (byte 117).val = 92 ∨ (byte 117).val = 47) := by decide
  have k3 : ¬ (byte 117).val = 98 := by decide
  have k4 : ¬ (byte 117).val = 102 := by decide
  have k5 : ¬ (byte 117).val = 110 := by decide
  have k6 : ¬ (byte 117).val = 114 := by decide
  have k7 : ¬ (byte 117).val = 116 := by decide
  have k8 : (byte 117).val = 117 := rfl
  simp only [stringItem, getu4, ha, hb, hc, hd, if_pos k1, if_neg k2, if_neg k3, if_neg k4,
    if_neg k5, if_neg k6, if_neg k7, if_pos k8, if_neg hns]

theorem quotePiece_item (p t : Bytes) (h : wellFormed p = true) :
    ∃ b r, quotePiece p ++ t = b :: r ∧ b.val ≠ 34 ∧ stringItem (b :: r) = some (p, t) := by
  match p, h with
  | [], h => simp [wellFormed] at h
  | [b], h =>
      have hb := wellFormed_single b h
      simp only [quotePiece, if_pos hb]
      by_cases h1 : b.val = 34 ∨ b.val = 92
      · rw [if_pos h1]
        refine ⟨byte 92, b :: t, rfl, by decide, ?_⟩
        have h2 : b.val = 34 ∨ b.val = 92 ∨ b.val = 47 := by omega
        simp only [stringItem, if_pos h2]
        rfl
      · rw [if_neg h1]
        by_cases h2 : b.val = 10
        · rw [if_pos h2]
          refine ⟨byte 92, byte 110 :: t, rfl, by decide, ?_⟩
          have : b = byte 10 := Fin.ext h2
          rw [this]
          rfl
        · rw [if_neg h2]
          by_cases h3 : b.val = 13
          · rw [if_pos h3]
            refine ⟨byte 92, byte 114 :: t, rfl, by decide, ?_⟩
            have : b = byte 13 := Fin.ext h3
            rw [this]
            rfl
          · rw [if_neg h3]
            by_cases h4 : b.val = 9
            · rw [if_pos h4]
              refine ⟨byte 92, byte 116 :: t, rfl, by decide, ?_⟩
              have : b = byte 9 := Fin.ext h4
              rw [this]
              rfl
            · rw [if_neg h4]
              by_cases h5 : b.val < 0x20 ∨ b.val = 60 ∨ b.val = 62 ∨ b.val = 38
              · rw [if_pos h5]
                refine ⟨byte 92, _, rfl, by decide, ?_⟩
                have e0 : hexVal (byte 48) = some 0 := by decide
                have hv : 4096 * 0 + 256 * 0 + 16 * (b.val / 16 % 16) + b.val % 16 = b.val := by
                  omega
                show stringItem (byte 92 :: byte 117 :: byte 48 :: byte 48 ::
                  hexOf (b.val / 16) :: hexOf b.val :: t) = _
                rw [stringItem_u (byte 48) (byte 48) _ _ t 0 0 _ _ e0 e0 (hexVal_hexOf _)
                  (hexVal_hexOf _) (by omega), hv]
                simp only [encodeRune, if_pos hb, byte_val]
              · rw [if_neg h5]
                refine ⟨b, t, rfl, by omega, ?_⟩
                have c1 : ¬ b.val = 92 := by omega
                have c2 : ¬ b.val < 0x20 := by omega
                simp only [stringItem, if_neg c1, if_neg c2, if_pos hb]
  | b0 :: b1 :: rest, h =>
      have hw := h
      simp only [wellFormed, decide_eq_true_eq] at hw
      have hlen := hw.2
      have hb0 : 0xC2 ≤ b0.val := by
        simp only [utf8Len, List.length_cons] at hlen
        by_contra hc
        repeat' split at hlen
        all_goals omega
      simp only [quotePiece, if_pos h]
      by_cases e1 : b0 :: b1 :: rest = [byte 0xE2, byte 0x80, byte 0xA8]
      · rw [if_pos e1, e1]
        exact ⟨byte 92, _, rfl, by decide, rfl⟩
      · rw [if_neg e1]
        by_cases e2 : b0 :: b1 :: rest = [byte 0xE2, byte 0x80, byte 0xA9]
        · rw [if_pos e2, e2]
          exact ⟨byte 92, _, rfl, by decide, rfl⟩
        · rw [if_neg e2]
          refine ⟨b0, b1 :: rest ++ t, rfl, by omega, ?_⟩
          have ha := utf8Len_append (b0 :: b1 :: rest) t (by simp) hlen
          simp only [List.cons_append] at ha
          have c1 : ¬ b0.val = 92 := by omega
          have c2 : ¬ b0.val < 0x20 := by omega
          have c3 : ¬ b0.val < 0x80 := by omega
          have c4 : ¬ (List.length (b0 :: b1 :: rest) = 0) := by simp
          simp only [stringItem, if_neg c1, if_neg c2, if_neg c3, ha, if_neg c4]
          have := @List.take_left _ (b0 :: b1 :: rest) t
          have := @List.drop_left _ (b0 :: b1 :: rest) t
          simp_all

theorem stringBody_pieces : ∀ (ps : List Bytes) (fuel : Nat) (rest : Bytes),
    (∀ p ∈ ps, wellFormed p = true) → ps.length < fuel →
    stringBody fuel ((ps.map quotePiece).flatten ++ byte 34 :: rest) = some (ps.flatten, rest)
  | [], 0, _, _, h => by simp at h
  | [], _ + 1, _, _, _ => rfl
  | _ :: _, 0, _, _, h => by simp at h
  | p :: ps, fuel + 1, rest, hw, h => by
      obtain ⟨b, r, e, hb, hitem⟩ := quotePiece_item p
        ((ps.map quotePiece).flatten ++ byte 34 :: rest) (hw p (List.mem_cons_self _ _))
      have ih := stringBody_pieces ps fuel rest (fun q hq => hw q (List.mem_cons_of_mem _ hq))
        (by simpa using h)
      simp only [List.map_cons, List.flatten_cons, List.append_assoc, e, stringBody, if_neg hb,
        hitem, ih]

theorem pieces_length_le : ∀ (n : Nat) (s : Bytes), (pieces n s).length ≤ s.length
  | 0, _ => by simp [pieces]
  | _ + 1, [] => by simp [pieces]
  | n + 1, b :: rest => by
      simp only [pieces, List.length_cons]
      have := pieces_length_le n ((b :: rest).drop (max 1 (utf8Len (b :: rest))))
      simp only [List.length_drop, List.length_cons] at this
      omega

theorem parseString_quote (s : GoString) (fuel : Nat) (rest : Bytes)
    (hv : validUTF8 s = true) (hf : s.length < fuel) :
    parseString fuel (quote s ++ rest) = some (s, rest) := by
  have hw : ∀ p ∈ pieces s.length s, wellFormed p = true := by
    simpa [validUTF8, List.all_eq_true] using hv
  have hl := pieces_length_le s.length s
  have h34 : (byte 34).val = 34 := rfl
  simp only [quote, List.cons_append, List.append_assoc, List.singleton_append, parseString,
    if_pos h34, List.nil_append]
  rw [stringBody_pieces _ fuel rest hw (by omega), pieces_flatten _ _ (Nat.le_refl _)]

/-! ## The decoder reads back what the encoder wrote: numbers -/

theorem digit_val (n : Nat) : (digit n).val = 48 + n % 10 := by
  show (48 + n % 10) % 256 = 48 + n % 10
  omega

theorem isDigit_digit (n : Nat) : isDigit (digit n) = true := by
  simp only [isDigit, digit_val, decide_eq_true_eq]
  omega

theorem digitRun_append : ∀ (ds rest : Bytes), (∀ d ∈ ds, isDigit d = true) → noDigitAhead rest →
    digitRun (ds ++ rest) = (ds, rest)
  | [], [], _, _ => rfl
  | [], b :: rest, _, h => by
      have hb : isDigit b = false := h b rfl
      simp [digitRun, hb]
  | d :: ds, rest, hd, h => by
      have ih := digitRun_append ds rest (fun x hx => hd x (List.mem_cons_of_mem _ hx)) h
      show digitRun (d :: (ds ++ rest)) = (d :: ds, rest)
      simp only [digitRun, hd d (List.mem_cons_self _ _), if_true, ih]

theorem digitsValue_snoc (ds : Bytes) (d : Byte) :
    digitsValue (ds ++ [d]) = 10 * digitsValue ds + (d.val - 48) := by
  simp [digitsValue, List.foldl_append]

theorem decimalDigits_spec : ∀ (fuel n : Nat), n < fuel →
    (∀ d ∈ decimalDigits fuel n, isDigit d = true) ∧ digitsValue (decimalDigits fuel n) = n ∧
      ∃ d ds, decimalDigits fuel n = d :: ds ∧ (d.val = 48 → n = 0 ∧ ds = [])
  | 0, _, h => by omega
  | fuel + 1, n, h => by
      unfold decimalDigits
      by_cases hn : n < 10
      · rw [if_pos hn]
        refine ⟨?_, ?_, digit n, [], rfl, ?_⟩
        · intro d hd
          rw [List.mem_singleton.1 hd]
          exact isDigit_digit n
        · simp only [digitsValue, List.foldl_cons, List.foldl_nil, digit_val]
          omega
        · intro h48
          rw [digit_val] at h48
          exact ⟨by omega, rfl⟩
      · rw [if_neg hn]
        obtain ⟨h1, h2, d, ds, h3, h4⟩ := decimalDigits_spec fuel (n / 10) (by omega)
        refine ⟨?_, ?_, d, ds ++ [digit n], by rw [h3]; rfl, ?_⟩
        · intro x hx
          rcases List.mem_append.1 hx with hx | hx
          · exact h1 x hx
          · rw [List.mem_singleton.1 hx]
            exact isDigit_digit n
        · rw [digitsValue_snoc, h2, digit_val]
          omega
        · intro h48
          have := (h4 h48).1
          omega

theorem parseNat_decimal (n : Nat) (rest : Bytes) (h : noDigitAhead rest) :
    parseNat (decimal n ++ rest) = some (n, rest) := by
  obtain ⟨h1, h2, d, ds, h3, h4⟩ := decimalDigits_spec (n + 1) n (Nat.lt_succ_self n)
  unfold parseNat decimal
  rw [digitRun_append _ rest h1 h, h3]
  have hc : ¬ (d.val = 48 ∧ ds ≠ []) := fun hh => hh.2 (h4 hh.1).2
  simp only [if_neg hc]
  rw [← h3, h2]

theorem decimal_head (n : Nat) : ∃ d ds, decimal n = d :: ds ∧ isDigit d = true := by
  obtain ⟨h1, _, d, ds, h3, _⟩ := decimalDigits_spec (n + 1) n (Nat.lt_succ_self n)
  refine ⟨d, ds, h3, h1 d ?_⟩
  rw [h3]
  exact List.mem_cons_self _ _

theorem parseInt_decimalInt (i : Int) (rest : Bytes) (h : noDigitAhead rest) :
    parseInt (decimalInt i ++ rest) = some (i, rest) := by
  unfold decimalInt
  by_cases hi : i < 0
  · rw [if_pos hi]
    have h45 : (byte 45).val = 45 := rfl
    simp only [List.cons_append, parseInt, if_pos h45, parseNat_decimal _ rest h]
    congr 2
    omega
  · rw [if_neg hi]
    obtain ⟨d, ds, hd, hdig⟩ := decimal_head i.natAbs
    have hne : ¬ d.val = 45 := by
      simp only [isDigit, decide_eq_true_eq] at hdig
      omega
    have hp := parseNat_decimal i.natAbs rest h
    rw [hd] at hp ⊢
    simp only [List.cons_append] at hp ⊢
    simp only [parseInt, if_neg hne, hp]
    congr 2
    omega

/-! ## The decoder reads back what the encoder wrote: times -/

theorem expectLit_append : ∀ (l rest : Bytes), expectLit l (l ++ rest) = some rest
  | [], _ => by cases ‹Bytes› <;> rfl
  | a :: l, rest => by
      show expectLit (a :: l) (a :: (l ++ rest)) = some rest
      simp only [expectLit, if_true]
      exact expectLit_append l rest

theorem digit_congr (a b : Nat) (h : a % 10 = b % 10) : digit a = digit b := by
  unfold digit
  rw [h]

theorem twoDigitNum_twoDigits (n : Nat) (rest : Bytes) (h : n < 100) :
    twoDigitNum (twoDigits n ++ rest) = some (n, rest) := by
  show twoDigitNum (digit (n / 10) :: digit n :: rest) = some (n, rest)
  simp only [twoDigitNum, isDigit_digit, Bool.and_self, if_true, digit_val]
  congr 2
  omega

theorem fourDigits_eq (y : Nat) :
    fourDigits y = twoDigits (y / 100) ++ twoDigits (y % 100) := by
  show [digit (y / 1000), digit (y / 100), digit (y / 10), digit y] =
    [digit (y / 100 / 10), digit (y / 100), digit (y % 100 / 10), digit (y % 100)]
  rw [digit_congr (y / 1000) (y / 100 / 10) (by omega),
    digit_congr (y / 10) (y % 100 / 10) (by omega), digit_congr y (y % 100) (by omega)]

theorem digitsValue_map_digit (ds : List Nat) : digitsValue (ds.map digit) = valOf ds := by
  unfold digitsValue valOf
  rw [List.foldl_map]
  congr 1
  funext a d
  rw [digit_val]
  omega

theorem valOf_snoc (ds : List Nat) (d : Nat) : valOf (ds ++ [d]) = 10 * valOf ds + d % 10 := by
  simp [valOf, List.foldl_append]

theorem trimZeros_snoc (ds : List Nat) (d : Nat) :
    trimZeros (ds ++ [d]) = if d = 0 then trimZeros ds else ds ++ [d] := by
  unfold trimZeros
  rw [List.reverse_append]
  simp only [List.reverse_cons, List.reverse_nil, List.nil_append, List.singleton_append,
    List.dropWhile_cons]
  by_cases h : d = 0
  · simp [h]
  · simp [h]

theorem trimZeros_spec (ds : List Nat) :
    (trimZeros ds).length ≤ ds.length ∧
      valOf (trimZeros ds) * 10 ^ (ds.length - (trimZeros ds).length) = valOf ds ∧
      (valOf ds ≠ 0 → trimZeros ds ≠ []) := by
  induction ds using List.reverseRecOn with
  | nil => exact ⟨Nat.le_refl _, rfl, fun h => absurd rfl h⟩
  | append_singleton xs d ih =>
      rw [trimZeros_snoc]
      obtain ⟨h1, h2, h3⟩ := ih
      by_cases hd : d = 0
      · rw [if_pos hd, valOf_snoc, hd]
        simp only [List.length_append, List.length_singleton]
        refine ⟨by omega, ?_, ?_⟩
        · rw [show xs.length + 1 - (trimZeros xs).length = (xs.length - (trimZeros xs).length) + 1
            by omega, Nat.pow_succ, ← Nat.mul_assoc, h2]
          omega
        · intro hv
          exact h3 (by omega)
      · rw [if_neg hd]
        refine ⟨Nat.le_refl _, by simp, by simp⟩

theorem valOf_nineDigits (n : Nat) (h : n < 1000000000) : valOf (nineDigits n) = n := by
  have e0 : n = 10 * (n / 10) + n % 10 := by omega
  have e1 : n / 10 = 10 * (n / 100) + n / 10 % 10 := by omega
  have e2 : n / 100 = 10 * (n / 1000) + n / 100 % 10 := by omega
  have e3 : n / 1000 = 10 * (n / 10000) + n / 1000 % 10 := by omega
  have e4 : n / 10000 = 10 * (n / 100000) + n / 10000 % 10 := by omega
  have e5 : n / 100000 = 10 * (n / 1000000) + n / 100000 % 10 := by omega
  have e6 : n / 1000000 = 10 * (n / 10000000) + n / 1000000 % 10 := by omega
  have e7 : n / 10000000 = 10 * (n / 100000000) + n / 10000000 % 10 := by omega
  have e8 : n / 100000000 = n / 100000000 % 10 := by omega
  simp only [valOf, nineDigits, List.foldl_cons, List.foldl_nil, Nat.mod_mod]
  generalize n / 100000000 % 10 = d8 at *
  generalize n / 10000000 % 10 = d7 at *
  generalize n / 1000000 % 10 = d6 at *
  generalize n / 100000 % 10 = d5 at *
  generalize n / 10000 % 10 = d4 at *
  generalize n / 1000 % 10 = d3 at *
  generalize n / 100 % 10 = d2 at *
  generalize n / 10 % 10 = d1 at *
  generalize n % 10 = d0 at *
  generalize n / 100000000 = q8 at *
  generalize n / 10000000 = q7 at *
  generalize n / 1000000 = q6 at *
  generalize n / 100000 = q5 at *
  generalize n / 10000 = q4 at *
  generalize n / 1000 = q3 at *
  generalize n / 100 = q2 at *
  generalize n / 10 = q1 at *
  omega

theorem parseFraction_fraction (nano : Nat) (c : Byte) (rest : Bytes) (h : nano < 1000000000)
    (hc : isDigit c = false) (h46 : c.val ≠ 46) :
    parseFraction (fraction nano ++ c :: rest) = (nano, c :: rest) := by
  unfold fraction
  by_cases h0 : nano = 0
  · rw [if_pos h0, h0]
    cases rest with
    | nil => rfl
    | cons d r =>
        have hn : ¬ (c.val = 46 ∧ isDigit d = true) := fun hh => h46 hh.1
        simp only [List.nil_append, parseFraction, if_neg hn]
  · rw [if_neg h0]
    obtain ⟨h1, h2, h3⟩ := trimZeros_spec (nineDigits nano)
    rw [valOf_nineDigits nano h] at h2 h3
    have hlen : (nineDigits nano).length = 9 := rfl
    rw [hlen] at h1 h2
    cases ht : trimZeros (nineDigits nano) with
    | nil => exact absurd ht (h3 h0)
    | cons d0 T =>
        rw [ht] at h1 h2
        have hrun : digitRun (digit d0 :: (T.map digit ++ c :: rest)) =
            ((d0 :: T).map digit, c :: rest) := by
          have := digitRun_append ((d0 :: T).map digit) (c :: rest)
            (by
              intro x hx
              obtain ⟨y, _, hy⟩ := List.mem_map.1 hx
              rw [← hy]
              exact isDigit_digit y)
            (by
              intro b hb
              simp only [List.head?_cons, Option.mem_def, Option.some.injEq] at hb
              rw [← hb]
              exact hc)
          simpa using this
        have h46b : (byte 46).val = 46 ∧ isDigit (digit d0) = true := ⟨rfl, isDigit_digit d0⟩
        show parseFraction (byte 46 :: digit d0 :: (T.map digit ++ c :: rest)) = _
        simp only [parseFraction, if_pos h46b, hrun]
        have hl : ((d0 :: T).map digit).length = (d0 :: T).length := List.length_map _ _
        rw [List.take_of_length_le (by rw [hl]; exact h1), digitsValue_map_digit, hl,
          Nat.min_eq_right h1, h2]

theorem parseZone_zone (off : Int) (rest : Bytes) (h60 : off % 60 = 0)
    (hlo : -86400 < off) (hhi : off < 86400) :
    parseZone (zone off ++ rest) = some (off, rest) := by
  unfold zone
  by_cases h0 : off = 0
  · rw [if_pos h0, h0]
    rfl
  · rw [if_neg h0]
    have hm : off.natAbs / 60 < 1440 := by omega
    have hhh : off.natAbs / 60 / 60 < 100 := by omega
    have hmm : off.natAbs / 60 % 60 < 100 := by omega
    have hchk : off.natAbs / 60 / 60 < 24 ∧ off.natAbs / 60 % 60 < 60 := by omega
    have e58 : ∀ r : Bytes, expectLit [byte 58] (byte 58 :: r) = some r := fun r =>
      expectLit_append [byte 58] r
    by_cases hneg : off ≤ -60
    · rw [if_pos hneg]
      have k1 : ¬ (byte 45).val = 90 := by decide
      have k2 : (byte 45).val = 43 ∨ (byte 45).val = 45 := by decide
      have k3 : (byte 45).val = 45 := rfl
      simp only [List.cons_append, List.append_assoc, parseZone, if_neg k1, if_pos k2,
        twoDigitNum_twoDigits _ _ hhh, e58, twoDigitNum_twoDigits _ _ hmm, if_pos hchk, if_pos k3]
      congr 2
      omega
    · rw [if_neg hneg]
      have k1 : ¬ (byte 43).val = 90 := by decide
      have k2 : (byte 43).val = 43 ∨ (byte 43).val = 45 := by decide
      have k3 : ¬ (byte 43).val = 45 := by decide
      simp only [List.cons_append, List.append_assoc, parseZone, if_neg k1, if_pos k2,
        twoDigitNum_twoDigits _ _ hhh, e58, twoDigitNum_twoDigits _ _ hmm, if_pos hchk, if_neg k3]
      congr 2
      omega

theorem zone_head (off : Int) (rest : Bytes) :
    ∃ c r, zone off ++ rest = c :: r ∧ isDigit c = false ∧ c.val ≠ 46 := by
  unfold zone
  split
  · exact ⟨byte 90, rest, rfl, by decide, by decide⟩
  · split
    · exact ⟨byte 45, _, rfl, by decide, by decide⟩
    · exact ⟨byte 43, _, rfl, by decide, by decide⟩

theorem isLeap_mod (y : Nat) : isLeap (y % 400) = isLeap y := by
  unfold isLeap
  congr 1
  apply propext
  omega

theorem parseTime_rfc3339 (t : Time) (rest : Bytes) (hw : t.wellFormed = true)
    (hc : t.carried = true) :
    parseTime (byte 34 :: (rfc3339 t ++ [byte 34]) ++ rest) = some (t, rest) := by
  simp only [Time.wellFormed, decide_eq_true_eq] at hw
  simp only [Time.carried, decide_eq_true_eq] at hc
  obtain ⟨hm1, hm2, hd1, hd2, hh, hmi, hs, hn⟩ := hw
  obtain ⟨hy1, hy2, ho1, ho2, ho3⟩ := hc
  have hy : t.year.toNat < 10000 := by omega
  have e34 : ∀ r : Bytes, expectLit [byte 34] (byte 34 :: r) = some r := fun r =>
    expectLit_append [byte 34] r
  have e45 : ∀ r : Bytes, expectLit [byte 45] (byte 45 :: r) = some r := fun r =>
    expectLit_append [byte 45] r
  have e58 : ∀ r : Bytes, expectLit [byte 58] (byte 58 :: r) = some r := fun r =>
    expectLit_append [byte 58] r
  have e84 : ∀ r : Bytes, expectLit [byte 84] (byte 84 :: r) = some r := fun r =>
    expectLit_append [byte 84] r
  obtain ⟨c, r, hz, hzd, hz46⟩ := zone_head t.offset (byte 34 :: rest)
  have hfrac := parseFraction_fraction t.nano c r hn hzd hz46
  rw [← hz] at hfrac
  have hzone := parseZone_zone t.offset (byte 34 :: rest) ho1 ho2 ho3
  have hday : daysIn t.month (100 * (t.year.toNat / 100) + t.year.toNat % 100) =
      daysIn t.month (t.year % 400).toNat := by
    have e1 : 100 * (t.year.toNat / 100) + t.year.toNat % 100 = t.year.toNat := by omega
    have e2 : (t.year % 400).toNat = t.year.toNat % 400 := by omega
    rw [e1, e2]
    unfold daysIn
    rw [isLeap_mod]
  have hchk : 1 ≤ t.month ∧ t.month ≤ 12 ∧ 1 ≤ t.day ∧
      t.day ≤ daysIn t.month (100 * (t.year.toNat / 100) + t.year.toNat % 100) ∧ t.hour < 24 ∧
      t.minute < 60 ∧ t.second < 60 := by
    rw [hday]
    exact ⟨hm1, hm2, hd1, hd2, hh, hmi, hs⟩
  have hdl : t.day < 100 := by
    have : daysIn t.month (t.year % 400).toNat ≤ 31 := by
      unfold daysIn
      repeat' split
      all_goals omega
    omega
  have hyear : ((100 * (t.year.toNat / 100) + t.year.toNat % 100 : Nat) : Int) = t.year := by
    omega
  simp only [rfc3339, fourDigits_eq, List.cons_append, List.append_assoc, List.nil_append,
    parseTime, e34, e45, e58, e84,
    twoDigitNum_twoDigits _ _ (show t.year.toNat / 100 < 100 by omega),
    twoDigitNum_twoDigits _ _ (show t.year.toNat % 100 < 100 by omega),
    twoDigitNum_twoDigits _ _ (show t.month < 100 by omega),
    twoDigitNum_twoDigits _ _ hdl,
    twoDigitNum_twoDigits _ _ (show t.hour < 100 by omega),
    twoDigitNum_twoDigits _ _ (show t.minute < 100 by omega),
    twoDigitNum_twoDigits _ _ (show t.second < 100 by omega),
    List.singleton_append, hfrac, hzone, if_pos hchk, hyear]

/-! ## The decoder reads back what the encoder wrote: records and entries -/

theorem marshalFileInfo_text (fi : FileInfo) (h : fi.ModTime.carried = true) :
    marshalFileInfo fi = some (recordText fi) := by
  simp only [Time.carried, decide_eq_true_eq] at h
  have h1 : ¬ (fi.ModTime.year < 0 ∨ 10000 ≤ fi.ModTime.year) := by omega
  simp only [marshalFileInfo, Time.MarshalJSON, if_neg h1, recordText, List.append_assoc]

theorem noDigitAhead_cons (b : Byte) (r : Bytes) (h : isDigit b = false) :
    noDigitAhead (b :: r) := by
  intro x hx
  simp only [List.head?_cons, Option.mem_def, Option.some.injEq] at hx
  rw [← hx]
  exact h

theorem parseBool_text (v : Bool) (rest : Bytes) :
    parseBool ((if v then ascii "true" else ascii "false") ++ rest) = some (v, rest) := by
  cases v with
  | true =>
      simp only [if_true, parseBool, expectLit_append]
  | false =>
      have e1 : ascii "false" = byte 102 :: ascii "alse" := by decide!
      have e2 : ascii "true" = byte 116 :: ascii "rue" := by decide!
      have e3 : expectLit (ascii "true") (ascii "false" ++ rest) = none := by
        rw [e1, e2]
        have hne : ¬ (byte 116 = byte 102) := by decide
        simp only [List.cons_append, expectLit, if_neg hne]
      simp only [parseBool, e3, expectLit_append]
      rfl

theorem parseFileInfo_text (fi : FileInfo) (fuel : Nat) (rest : Bytes)
    (h : fi.carried = true) (hf : fi.Name.length < fuel) :
    parseFileInfo fuel (recordText fi ++ rest) = some (fi, rest) := by
  simp only [FileInfo.carried, Bool.and_eq_true] at h
  obtain ⟨⟨hn, hw⟩, hc⟩ := h
  have e2 : ascii ",\"mode\":" = byte 44 :: ascii "\"mode\":" := by decide!
  have e3 : ascii ",\"modTime\":" = byte 44 :: ascii "\"modTime\":" := by decide!
  have n2 : ∀ r : Bytes, noDigitAhead (ascii ",\"mode\":" ++ r) := fun r => by
    rw [e2]
    exact noDigitAhead_cons _ _ (by decide)
  have n3 : ∀ r : Bytes, noDigitAhead (ascii ",\"modTime\":" ++ r) := fun r => by
    rw [e3]
    exact noDigitAhead_cons _ _ (by decide)
  have ht := fun r => parseTime_rfc3339 fi.ModTime r hw hc
  simp only [List.cons_append, List.append_assoc] at ht
  simp only [recordText, List.append_assoc, List.cons_append, parseFileInfo, expectLit_append,
    parseString_quote _ fuel _ hn hf, parseInt_decimalInt _ _ (n2 _),
    parseNat_decimal _ _ (n3 _), ht, parseBool_text]

theorem recordText_head (fi : FileInfo) (rest : Bytes) :
    ∃ r, recordText fi ++ rest = byte 123 :: r := by
  have e1 : ascii "\x7b\"name\":" = byte 123 :: ascii "\"name\":" := by decide!
  exact ⟨_, by rw [recordText, e1]; rfl⟩

theorem commaSep_cons (x : Bytes) (xs : List Bytes) :
    commaSep (x :: xs) = x ++ (xs.map (fun t => byte 44 :: t)).flatten := by
  induction xs generalizing x with
  | nil => simp [commaSep]
  | cons y ys ih => simp only [commaSep, ih y, List.map_cons, List.flatten_cons, List.cons_append]

theorem parseFileInfosTail_text (fuel : Nat) : ∀ (fis : FileInfos) (n : Nat) (rest : Bytes),
    (∀ fi ∈ fis, fi.carried = true ∧ fi.Name.length < fuel) → fis.length < n →
    parseFileInfosTail fuel n
        (((fis.map recordText).map (fun t => byte 44 :: t)).flatten ++ byte 93 :: rest) =
      some (fis, rest)
  | [], 0, _, _, h => by simp at h
  | [], _ + 1, _, _, _ => rfl
  | _ :: _, 0, _, _, h => by simp at h
  | fi :: fis, n + 1, rest, hall, h => by
      have hfi := hall fi (List.mem_cons_self _ _)
      have ih := parseFileInfosTail_text fuel fis n rest
        (fun x hx => hall x (List.mem_cons_of_mem _ hx)) (by simpa using h)
      have k1 : ¬ (byte 44).val = 93 := by decide
      have k2 : (byte 44).val = 44 := rfl
      have hshape : (((fi :: fis).map recordText).map (fun t => byte 44 :: t)).flatten ++
          byte 93 :: rest = byte 44 :: (recordText fi ++
            (((fis.map recordText).map (fun t => byte 44 :: t)).flatten ++ byte 93 :: rest)) := by
        simp only [List.map_cons, List.flatten_cons, List.cons_append, List.append_assoc]
      rw [hshape]
      simp only [parseFileInfosTail, if_neg k1, if_pos k2,
        parseFileInfo_text fi fuel _ hfi.1 hfi.2, ih]

theorem parseFileInfos_text (fuel : Nat) (fis : FileInfos) (rest : Bytes)
    (hall : ∀ fi ∈ fis, fi.carried = true ∧ fi.Name.length < fuel) (h : fis.length < fuel) :
    parseFileInfos fuel (arrayText fis ++ rest) = some (fis, rest) := by
  cases fis with
  | nil => rfl
  | cons fi fis =>
      have hfi := hall fi (List.mem_cons_self _ _)
      obtain ⟨r, hr⟩ := recordText_head fi
        ((((fis.map recordText).map (fun t => byte 44 :: t)).flatten ++ [byte 93]) ++ rest)
      have hp := parseFileInfo_text fi fuel
        ((((fis.map recordText).map (fun t => byte 44 :: t)).flatten ++ [byte 93]) ++ rest)
        hfi.1 hfi.2
      rw [hr] at hp
      have htail := parseFileInfosTail_text fuel fis fuel rest
        (fun x hx => hall x (List.mem_cons_of_mem _ hx))
        (by simp only [List.length_cons] at h; omega)
      have k0 : (byte 91).val = 91 := rfl
      have k1 : ¬ (byte 123).val = 93 := by decide
      have hshape : arrayText (fi :: fis) ++ rest = byte 91 :: byte 123 :: r := by
        rw [← hr]
        simp only [arrayText, List.map_cons, commaSep_cons, List.cons_append, List.append_assoc]
      rw [hshape]
      simp only [parseFileInfos, if_pos k0, if_neg k1, hp, List.append_assoc,
        List.singleton_append, htail]

theorem parseSlice_text (fuel : Nat) (v : Slice) (rest : Bytes)
    (hall : ∀ fi ∈ v.toList, fi.carried = true ∧ fi.Name.length < fuel)
    (h : v.toList.length < fuel) :
    parseSlice fuel (sliceText v ++ rest) = some (v, rest) := by
  cases v with
  | null => simp only [parseSlice, sliceText, expectLit_append]
  | items fis =>
      have e1 : ascii "null" = byte 110 :: ascii "ull" := by decide!
      have hne : ¬ (byte 110 = byte 91) := by decide
      have e2 : expectLit (ascii "null") (arrayText fis ++ rest) = none := by
        rw [e1]
        simp only [arrayText, List.cons_append, expectLit, if_neg hne]
      simp only [parseSlice, sliceText, e2, parseFileInfos_text fuel fis rest hall h]

theorem parseEntry_text (fuel : Nat) (e : GoString × Slice) (rest : Bytes)
    (h : entryFits fuel e) : parseEntry fuel (entryText e ++ rest) = some (e, rest) := by
  obtain ⟨h1, h2, h3, h4⟩ := h
  have e58 : ∀ r : Bytes, expectLit [byte 58] (byte 58 :: r) = some r := fun r =>
    expectLit_append [byte 58] r
  simp only [entryText, List.append_assoc, List.cons_append, parseEntry,
    parseString_quote _ fuel _ h1 h2, e58, parseSlice_text fuel e.2 rest h4 h3]

theorem quote_head (s : GoString) (rest : Bytes) : ∃ r, quote s ++ rest = byte 34 :: r :=
  ⟨_, rfl⟩

theorem parseEntriesTail_text (fuel : Nat) : ∀ (es : List (GoString × Slice)) (n : Nat)
    (rest : Bytes), (∀ e ∈ es, entryFits fuel e) → es.length < n →
    parseEntriesTail fuel n
        (((es.map entryText).map (fun t => byte 44 :: t)).flatten ++ byte 125 :: rest) =
      some (es, rest)
  | [], 0, _, _, h => by simp at h
  | [], _ + 1, _, _, _ => rfl
  | _ :: _, 0, _, _, h => by simp at h
  | e :: es, n + 1, rest, hall, h => by
      have he := hall e (List.mem_cons_self _ _)
      have ih := parseEntriesTail_text fuel es n rest
        (fun x hx => hall x (List.mem_cons_of_mem _ hx)) (by simpa using h)
      have k1 : ¬ (byte 44).val = 125 := by decide
      have k2 : (byte 44).val = 44 := rfl
      have hshape : (((e :: es).map entryText).map (fun t => byte 44 :: t)).flatten ++
          byte 125 :: rest = byte 44 :: (entryText e ++
            (((es.map entryText).map (fun t => byte 44 :: t)).flatten ++ byte 125 :: rest)) := by
        simp only [List.map_cons, List.flatten_cons, List.cons_append, List.append_assoc]
      rw [hshape]
      simp only [parseEntriesTail, if_neg k1, if_pos k2, parseEntry_text fuel e _ he, ih]

theorem parseEntries_text (fuel : Nat) (es : List (GoString × Slice)) (rest : Bytes)
    (hall : ∀ e ∈ es, entryFits fuel e) (h : es.length < fuel) :
    parseEntries fuel (cacheText es ++ rest) = some (es, rest) := by
  cases es with
  | nil => rfl
  | cons e es =>
      have he := hall e (List.mem_cons_self _ _)
      obtain ⟨r, hr⟩ := quote_head e.1 ((byte 58 :: sliceText e.2) ++
        ((((es.map entryText).map (fun t => byte 44 :: t)).flatten ++ [byte 125]) ++ rest))
      have hp := parseEntry_text fuel e
        ((((es.map entryText).map (fun t => byte 44 :: t)).flatten ++ [byte 125]) ++ rest) he
      have hshape2 : entryText e ++
          ((((es.map entryText).map (fun t => byte 44 :: t)).flatten ++ [byte 125]) ++ rest) =
          byte 34 :: r := by
        rw [← hr]
        simp only [entryText, List.append_assoc]
      rw [hshape2] at hp
      have htail := parseEntriesTail_text fuel es fuel rest
        (fun x hx => hall x (List.mem_cons_of_mem _ hx))
        (by simp only [List.length_cons] at h; omega)
      have k0 : (byte 123).val = 123 := rfl
      have k1 : ¬ (byte 34).val = 125 := by decide
      have hshape : cacheText (e :: es) ++ rest = byte 123 :: byte 34 :: r := by
        rw [← hshape2]
        simp only [cacheText, List.map_cons, commaSep_cons, List.cons_append, List.append_assoc]
      rw [hshape]
      simp only [parseEntries, if_pos k0, if_neg k1, hp, List.append_assoc,
        List.singleton_append, htail]

/-! ## The decoder reads back what the encoder wrote: the Index -/

theorem quotePiece_length (p : Bytes) (h : wellFormed p = true) :
    p.length ≤ (quotePiece p).length := by
  match p, h with
  | [], h => simp
  | [b], h =>
      simp only [quotePiece]
      repeat' split
      all_goals simp
  | b0 :: b1 :: rest, h =>
      simp only [quotePiece, if_pos h]
      split
      · rename_i e
        rw [e]
        simp
      · split
        · rename_i e
          rw [e]
          simp
        · exact Nat.le_refl _

theorem quote_length (s : GoString) (h : validUTF8 s = true) : s.length + 2 ≤ (quote s).length := by
  have hw : ∀ p ∈ pieces s.length s, wellFormed p = true := by
    simpa [validUTF8, List.all_eq_true] using h
  have hflat : ∀ ps : List Bytes, (∀ p ∈ ps, wellFormed p = true) →
      ps.flatten.length ≤ ((ps.map quotePiece).flatten).length := by
    intro ps
    induction ps with
    | nil => intro _; simp
    | cons p ps ih =>
        intro hp
        have h1 := quotePiece_length p (hp p (List.mem_cons_self _ _))
        have h2 := ih (fun q hq => hp q (List.mem_cons_of_mem _ hq))
        simp only [List.map_cons, List.flatten_cons, List.length_append]
        omega
  have h1 := hflat _ hw
  rw [pieces_flatten _ _ (Nat.le_refl _)] at h1
  simp only [quote, List.length_cons, List.length_append, List.length_nil]
  omega

theorem commaSep_length : ∀ (xs : List Bytes),
    (∀ x ∈ xs, x.length ≤ (commaSep xs).length) ∧
      ((∀ x ∈ xs, 1 ≤ x.length) → xs.length ≤ (commaSep xs).length)
  | [] => ⟨by simp, by simp [commaSep]⟩
  | [x] => ⟨by simp [commaSep], fun h => by
      have := h x (List.mem_cons_self _ _)
      simpa [commaSep] using this⟩
  | x :: y :: rest => by
      obtain ⟨h1, h2⟩ := commaSep_length (y :: rest)
      simp only [commaSep, List.length_append, List.length_cons]
      constructor
      · intro a ha
        rcases List.mem_cons.1 ha with ha | ha
        · rw [ha]; omega
        · have := h1 a ha
          omega
      · intro h
        have := h2 (fun a ha => h a (List.mem_cons_of_mem _ ha))
        simp only [List.length_cons] at this
        omega

theorem recordText_length (fi : FileInfo) (h : validUTF8 fi.Name = true) :
    fi.Name.length + 2 ≤ (recordText fi).length := by
  have := quote_length fi.Name h
  simp only [recordText, List.length_append]
  omega

theorem arrayText_fits (fis : FileInfos) (h : ∀ fi ∈ fis, validUTF8 fi.Name = true) :
    fis.length < (arrayText fis).length ∧ ∀ fi ∈ fis, fi.Name.length < (arrayText fis).length := by
  obtain ⟨h1, h2⟩ := commaSep_length (fis.map recordText)
  simp only [arrayText, List.length_cons, List.length_append, List.length_nil]
  constructor
  · have := h2 (by
      intro x hx
      obtain ⟨fi, hfi, e⟩ := List.mem_map.1 hx
      rw [← e]
      have := recordText_length fi (h fi hfi)
      omega)
    simp only [List.length_map] at this
    omega
  · intro fi hfi
    have a := h1 _ (List.mem_map_of_mem recordText hfi)
    have b := recordText_length fi (h fi hfi)
    omega

theorem sliceText_fits (v : Slice) (h : ∀ fi ∈ v.toList, validUTF8 fi.Name = true) :
    v.toList.length < (sliceText v).length ∧
      ∀ fi ∈ v.toList, fi.Name.length < (sliceText v).length := by
  cases v with
  | null =>
      refine ⟨by decide, fun fi hfi => ?_⟩
      simp [Slice.toList] at hfi
  | items fis => exact arrayText_fits fis h

theorem entryText_fits (e : GoString × Slice) (hk : validUTF8 e.1 = true)
    (h : ∀ fi ∈ e.2.toList, validUTF8 fi.Name = true) :
    e.1.length < (entryText e).length ∧ e.2.toList.length < (entryText e).length ∧
      ∀ fi ∈ e.2.toList, fi.Name.length < (entryText e).length := by
  obtain ⟨h1, h2⟩ := sliceText_fits e.2 h
  have h3 := quote_length e.1 hk
  simp only [entryText, List.length_append, List.length_cons]
  refine ⟨by omega, by omega, fun fi hfi => ?_⟩
  have := h2 fi hfi
  omega

theorem mem_keys_of_mem_entry (c : Cache) (e : GoString × Slice) (he : e ∈ c.entries) :
    e.1 ∈ c.keys := List.mem_map_of_mem _ he

theorem carried_entry (c : Cache) (hw : c.timesWellFormed = true) (hc : c.carried = true)
    (e : GoString × Slice) (he : e ∈ c.entries) :
    validUTF8 e.1 = true ∧ ∀ fi ∈ e.2.toList, fi.carried = true := by
  simp only [Cache.timesWellFormed, List.all_eq_true] at hw
  simp only [Cache.carried, Bool.and_eq_true, List.all_eq_true] at hc
  refine ⟨hc.1 _ (mem_keys_of_mem_entry c e he), fun fi hfi => ?_⟩
  have hr := mem_records_of_mem_entry c e he fi hfi
  have a := hw fi hr
  have b := hc.2 fi hr
  simp only [FileInfo.carried, Bool.and_eq_true]
  exact ⟨⟨b.1, a⟩, b.2⟩

theorem marshalFileInfos_text (v : Slice) (h : ∀ fi ∈ v.toList, fi.carried = true) :
    marshalFileInfos v = some (sliceText v) := by
  cases v with
  | null => rfl
  | items fis =>
      have h1 : allSome (fis.map marshalFileInfo) = some (fis.map recordText) :=
        allSome_map_eq marshalFileInfo recordText fis (fun fi hmem => by
          have := h fi hmem
          simp only [FileInfo.carried, Bool.and_eq_true] at this
          exact marshalFileInfo_text fi this.2)
      simp only [marshalFileInfos, h1, sliceText, arrayText]

theorem jsonMarshal_text (c : Cache) (hw : c.timesWellFormed = true) (hc : c.carried = true) :
    jsonMarshal c = some (indexText c) := by
  have he : ∀ e ∈ c.entries, marshalEntry e = some (entryText e) := by
    intro e hmem
    simp only [marshalEntry, marshalFileInfos_text e.2 (carried_entry c hw hc e hmem).2,
      entryText]
  unfold jsonMarshal indexText
  by_cases hn : c.isNil = true
  · rw [if_pos hn, if_pos hn]
  · rw [if_neg hn, if_neg hn]
    simp only [allSome_map_eq marshalEntry entryText c.entries he, cacheText]

theorem setEntry_last (k : GoString) (v : Slice) : ∀ (l : List (GoString × Slice)),
    (∀ x ∈ l, strLt x.1 k = true) → setEntry k v l = l ++ [(k, v)]
  | [], _ => rfl
  | e :: rest, h => by
      have he := h e (List.mem_cons_self _ _)
      have h1 : ¬ k = e.1 := fun eq => strLt_ne he eq.symm
      have h2 : ¬ strLt k e.1 = true := by
        intro hlt
        have := strLt_trans _ _ _ hlt he
        rw [strLt_irrefl] at this
        exact Bool.noConfusion this
      simp only [setEntry, if_neg h1, if_neg h2, List.cons_append,
        setEntry_last k v rest (fun x hx => h x (List.mem_cons_of_mem _ hx))]

theorem foldl_set_entries : ∀ (es : List (GoString × Slice)) (acc : Cache),
    acc.isNil = false → KeysAscending (acc.entries ++ es) →
    (es.foldl (fun c e => c.set e.1 e.2) acc).entries = acc.entries ++ es ∧
      (es.foldl (fun c e => c.set e.1 e.2) acc).isNil = false
  | [], acc, hn, _ => ⟨by simp, hn⟩
  | e :: es, acc, _, h => by
      have hlast : ∀ x ∈ acc.entries, strLt x.1 e.1 = true := by
        intro x hx
        have := List.pairwise_append.1 h
        exact this.2.2 x hx e (List.mem_cons_self _ _)
      have hset : (acc.set e.1 e.2).entries = acc.entries ++ [e] := by
        show setEntry e.1 e.2 acc.entries = _
        rw [setEntry_last _ _ _ hlast]
      have h2 : KeysAscending ((acc.set e.1 e.2).entries ++ es) := by
        rw [hset, List.append_assoc]
        exact h
      obtain ⟨i1, i2⟩ := foldl_set_entries es (acc.set e.1 e.2) rfl h2
      refine ⟨?_, i2⟩
      rw [List.foldl_cons, i1, hset, List.append_assoc]
      rfl

theorem Cache.ext_entries (a b : Cache) (h : a.entries = b.entries) (hn : a.isNil = b.isNil) :
    a = b := by
  cases a
  cases b
  simp only [Cache.mk.injEq]
  exact ⟨h, hn⟩

theorem cacheText_ne_null (es : List (GoString × Slice)) : ¬ (cacheText es = ascii "null") := by
  have e1 : ascii "null" = byte 110 :: ascii "ull" := by decide!
  rw [e1, cacheText]
  intro h
  have := (List.cons.inj h).1
  exact absurd this (by decide)

theorem jsonUnmarshal_text (c : Cache) (hw : c.timesWellFormed = true) (hc : c.carried = true) :
    jsonUnmarshal (indexText c) = some c := by
  unfold indexText
  by_cases hnil : c.isNil = true
  · rw [if_pos hnil]
    simp only [jsonUnmarshal, if_true]
    congr 1
    exact Cache.ext_entries _ _ (c.nilEmpty hnil).symm hnil.symm
  rw [if_neg hnil]
  have hfits : ∀ e ∈ c.entries, entryFits (cacheText c.entries).length e := by
    intro e he
    obtain ⟨hk, hfi⟩ := carried_entry c hw hc e he
    have hn : ∀ fi ∈ e.2.toList, validUTF8 fi.Name = true := fun fi hmem => by
      have := hfi fi hmem
      simp only [FileInfo.carried, Bool.and_eq_true] at this
      exact this.1.1
    obtain ⟨f1, f2, f3⟩ := entryText_fits e hk hn
    have hle : (entryText e).length ≤ (cacheText c.entries).length := by
      have := (commaSep_length (c.entries.map entryText)).1 _ (List.mem_map_of_mem entryText he)
      simp only [cacheText, List.length_cons, List.length_append]
      omega
    exact ⟨hk, by omega, by omega, fun fi hmem => ⟨hfi fi hmem, by have := f3 fi hmem; omega⟩⟩
  have hlen : c.entries.length < (cacheText c.entries).length := by
    have := (commaSep_length (c.entries.map entryText)).2 (by
      intro x hx
      obtain ⟨e, _, ee⟩ := List.mem_map.1 hx
      rw [← ee]
      simp only [entryText, quote, List.length_append, List.length_cons]
      omega)
    simp only [List.length_map] at this
    simp only [cacheText, List.length_cons, List.length_append]
    omega
  have hp := parseEntries_text (cacheText c.entries).length c.entries [] hfits hlen
  rw [List.append_nil] at hp
  simp only [jsonUnmarshal, if_neg (cacheText_ne_null c.entries), hp]
  congr 1
  obtain ⟨i1, i2⟩ := foldl_set_entries c.entries Cache.empty rfl
    (by simpa [Cache.empty] using c.ascending)
  apply Cache.ext_entries _ _ _ (by rw [i2]; simpa using hnil)
  rw [i1]
  rfl

/-! ## The claims -/

/-- C10: NewFileInfo of a filesystem entry is the record whose Name, Size,
Mode, ModTime and IsDir are exactly what the entry's methods of these names
report. -/
theorem NewFileInfo_fields (fi : OsFileInfo) :
    (NewFileInfo fi).Name = fi.name ∧ (NewFileInfo fi).Size = fi.size ∧
      (NewFileInfo fi).Mode = fi.mode ∧ (NewFileInfo fi).ModTime = fi.modTime ∧
      (NewFileInfo fi).IsDir = fi.isDir ∧
      NewFileInfo fi = ⟨fi.name, fi.size, fi.mode, fi.modTime, fi.isDir⟩ :=
  ⟨rfl, rfl, rfl, rfl, rfl, rfl⟩

/-- C7: for a record whose Name refers to a readable file with content
`content`, makeKey returns the lowercase hexadecimal MD5 digest of the content,
32 characters long; any other record of a readable file with the same content
gets the same key, whatever the receiver cache, the world and the record's
other fields are; and for the 12 bytes `Some Content` the key is
`78138d2003f1a87043d65c692fb3a64b`. -/
theorem makeKey_md5_hex (w w1 : World) (c c1 : Cache) (fi fi1 : FileInfo) (content : Bytes)
    (h : w.files fi.Name = some content) (h1 : w1.files fi1.Name = some content) :
    c.makeKey w fi = .ok (hexString (MD5.sum content)) ∧
      (hexString (MD5.sum content)).length = 32 ∧
      (∀ x ∈ hexString (MD5.sum content),
        (48 ≤ x.val ∧ x.val ≤ 57) ∨ (97 ≤ x.val ∧ x.val ≤ 102)) ∧
      c1.makeKey w1 fi1 = c.makeKey w fi ∧
      (content = ascii "Some Content" →
        c.makeKey w fi = .ok (ascii "78138d2003f1a87043d65c692fb3a64b")) := by
  refine ⟨makeKey_eq w c fi content h, ?_, hexString_lower _, ?_, ?_⟩
  · rw [hexString_length, sum_length]
  · rw [makeKey_eq w c fi content h, makeKey_eq w1 c1 fi1 content h1]
  · intro hc
    rw [makeKey_eq w c fi content h, hc]
    decide!

theorem makeKey_md5_hex_witness :
    Cache.empty.makeKey fooWorld (named (ascii "Foo")) =
      .ok (ascii "78138d2003f1a87043d65c692fb3a64b") :=
  (makeKey_md5_hex fooWorld fooWorld Cache.empty Cache.empty (named (ascii "Foo"))
    (named (ascii "Foo")) (ascii "Some Content") (by decide) (by decide)).2.2.2.2 rfl

/-- C3 as stated fails: on the nil cache (`var c Cache`) Insert of a record
whose file can be read yields no cache; the assignment to an entry of the nil
map is a runtime panic. -/
theorem Insert_nil_map_panics :
    fooWorld.files (named (ascii "Foo")).Name = some (ascii "Some Content") ∧
      Cache.null.Insert fooWorld (named (ascii "Foo")) = .error .panic := by
  decide!

/-- C3, amended: for every cache that is not the nil map and every record
whose file can be opened and read, Insert yields the cache that differs from
the old one only at the key `k` that makeKey gives the record (the hexadecimal
digest of the file's content): `k` is a key, its sequence is the old sequence
under `k` (empty when `k` was absent) with the record appended at the end, and
every other key keeps its presence and its sequence; inserting into the empty
cache leaves the record as element 0 under `k`, the only key. -/
theorem Insert_appends_under_key (w : World) (c : Cache) (fi : FileInfo) (content : Bytes)
    (h : w.files fi.Name = some content) (hn : c.isNil = false) :
    ∃ k c1 c0, c.makeKey w fi = .ok k ∧ k = hexString (MD5.sum content) ∧
      c.Insert w fi = .ok c1 ∧ c1.has k = true ∧ c1.get k = c.get k ++ [fi] ∧
      (c.has k = false → c1.get k = [fi]) ∧
      (∀ k1, k1 ≠ k → c1.has k1 = c.has k1 ∧ c1.get k1 = c.get k1) ∧
      Cache.empty.Insert w fi = .ok c0 ∧ (c0.get k)[0]? = some fi ∧ c0.keys = [k] := by
  refine ⟨hexString (MD5.sum content), _, _, makeKey_eq w c fi content h, rfl,
    Insert_eq w c fi content h hn, Cache.has_set_self _ _ _, Cache.get_set_self _ _ _, ?_, ?_,
    Insert_eq w Cache.empty fi content h rfl, ?_, ?_⟩
  · intro hk
    rw [Cache.get_set_self, Cache.get_of_not_has c _ hk]
    rfl
  · intro k1 hk1
    exact ⟨Cache.has_set_other _ _ _ _ hk1, Cache.get_set_other _ _ _ _ hk1⟩
  · rw [Cache.get_set_self, Cache.get_empty]
    rfl
  · rfl

theorem Insert_appends_under_key_witness :
    ∃ c0, Cache.empty.Insert fooWorld (named (ascii "Foo")) = .ok c0 ∧
      (c0.get (ascii "78138d2003f1a87043d65c692fb3a64b"))[0]? = some (named (ascii "Foo")) := by
  obtain ⟨k, _, c0, _, hk, _, _, _, _, _, h0, h1, _⟩ :=
    Insert_appends_under_key fooWorld Cache.empty (named (ascii "Foo")) (ascii "Some Content")
      (by decide) rfl
  have hk2 : k = ascii "78138d2003f1a87043d65c692fb3a64b" := by rw [hk]; decide!
  rw [hk2] at h1
  exact ⟨c0, h0, h1⟩

/-- C2: for two records whose files can be opened and read, NewCache of the
two holds both under one and the same key (the only key) when the two files
have the same content, and under two different keys, each record alone under
the key makeKey gives it, when the contents differ and their digests differ. -/
theorem NewCache_groups_by_content (w : World) (a b : FileInfo) (ca cb : Bytes)
    (ha : w.files a.Name = some ca) (hb : w.files b.Name = some cb) :
    (ca = cb → ∃ k c, NewCache w [a, b] = .ok c ∧ c.get k = [a, b] ∧ c.keys = [k]) ∧
      (ca ≠ cb → MD5.sum ca ≠ MD5.sum cb →
        ∃ ka kb c, NewCache w [a, b] = .ok c ∧ Cache.empty.makeKey w a = .ok ka ∧
          Cache.empty.makeKey w b = .ok kb ∧ ka ≠ kb ∧ c.get ka = [a] ∧ c.get kb = [b] ∧
          c.has ka = true ∧ c.has kb = true) := by
  have h1 := Insert_eq w Cache.empty a ca ha rfl
  have h2 := Insert_eq w (Cache.empty.set (hexString (MD5.sum ca))
    (.items (Cache.empty.get (hexString (MD5.sum ca)) ++ [a]))) b cb hb rfl
  have hrun : NewCache w [a, b] = .ok
      ((Cache.empty.set (hexString (MD5.sum ca))
          (.items (Cache.empty.get (hexString (MD5.sum ca)) ++ [a]))).set (hexString (MD5.sum cb))
        (.items ((Cache.empty.set (hexString (MD5.sum ca))
          (.items (Cache.empty.get (hexString (MD5.sum ca)) ++ [a]))).get
            (hexString (MD5.sum cb)) ++ [b]))) := by
    simp only [NewCache, insertAll, h1, h2]
  constructor
  · intro e
    subst e
    refine ⟨hexString (MD5.sum ca), _, hrun, ?_, ?_⟩
    · simp [Cache.get_set_self, Cache.get_empty, Slice.toList]
    · simp [Cache.keys, Cache.set, Cache.empty, setEntry]
  · intro _ hd
    have hk : hexString (MD5.sum ca) ≠ hexString (MD5.sum cb) := fun e => hd (hexString_inj _ _ e)
    refine ⟨hexString (MD5.sum ca), hexString (MD5.sum cb), _, hrun, makeKey_eq w _ a ca ha,
      makeKey_eq w _ b cb hb, hk, ?_, ?_, ?_, ?_⟩
    · rw [Cache.get_set_other _ _ _ _ hk, Cache.get_set_self, Cache.get_empty]
      rfl
    · rw [Cache.get_set_self, Cache.get_set_other _ _ _ _ (Ne.symm hk), Cache.get_empty]
      rfl
    · rw [Cache.has_set_other _ _ _ _ hk, Cache.has_set_self]
    · rw [Cache.has_set_self]

theorem NewCache_groups_by_content_witness :
    (∃ k c, NewCache fooWorld [named (ascii "Foo"), named (ascii "Bar")] = .ok c ∧
      c.get k = [named (ascii "Foo"), named (ascii "Bar")] ∧ c.keys = [k]) :=
  (NewCache_groups_by_content fooWorld (named (ascii "Foo")) (named (ascii "Bar"))
    (ascii "Some Content") (ascii "Some Content") (by decide) (by decide)).1 rfl

/-- C9: for every list of records whose files are readable and every
permutation of it, over the same file contents, NewCache returns for both, the
two Indexes have the same keys, and under each key the sequence in one is a
permutation of the sequence in the other. -/
theorem NewCache_perm (w : World) (l1 l2 : List FileInfo) (hp : l1.Perm l2)
    (hr : ∀ fi ∈ l1, (w.files fi.Name).isSome = true) :
    ∃ c1 c2, NewCache w l1 = .ok c1 ∧ NewCache w l2 = .ok c2 ∧ c1.keys = c2.keys ∧
      (∀ k, c1.has k = c2.has k) ∧ ∀ k, (c1.get k).Perm (c2.get k) := by
  obtain ⟨c1, h1, g1, k1⟩ := NewCache_spec w l1 hr
  obtain ⟨c2, h2, g2, k2⟩ := NewCache_spec w l2 (fun fi hfi => hr fi (hp.mem_iff.2 hfi))
  have hhas : ∀ k, c1.has k = c2.has k := by
    intro k
    rw [k1 k, k2 k]
    apply Bool.eq_iff_iff.2
    simp only [List.any_eq_true]
    constructor
    · rintro ⟨x, hx, hk⟩
      exact ⟨x, hp.mem_iff.1 hx, hk⟩
    · rintro ⟨x, hx, hk⟩
      exact ⟨x, hp.mem_iff.2 hx, hk⟩
  refine ⟨c1, c2, h1, h2, ?_, hhas, ?_⟩
  · apply keys_eq_of_same_members _ _ c1.keys_pairwise c2.keys_pairwise
    intro k
    rw [← Cache.has_iff_mem_keys, ← Cache.has_iff_mem_keys, hhas k]
  · intro k
    rw [g1 k, g2 k]
    exact hp.filter _

theorem NewCache_perm_witness :
    ∃ c1 c2, NewCache fooWorld [named (ascii "Foo"), named (ascii "Baz"), named (ascii "Bar")] = .ok c1 ∧
      NewCache fooWorld [named (ascii "Bar"), named (ascii "Foo"), named (ascii "Baz")] = .ok c2 ∧
      c1.keys = c2.keys ∧ (∀ k, c1.has k = c2.has k) ∧ ∀ k, (c1.get k).Perm (c2.get k) :=
  NewCache_perm fooWorld [named (ascii "Foo"), named (ascii "Baz"), named (ascii "Bar")]
    [named (ascii "Bar"), named (ascii "Foo"), named (ascii "Baz")] (by decide) (by decide)

/-- C5 (the code differs): with a directory that cannot be listed in the tree,
CacheFromDirRecursive does not end the run; the walk goes on past the
directory and an Index built from the other entries is returned. -/
theorem CacheFromDirRecursive_passes_locked_dir :
    (CacheFromDirRecursive lockedWorld (ascii "/r")).map Cache.entries =
      .ok [(ascii "78138d2003f1a87043d65c692fb3a64b",
        .items [⟨ascii "/r/b", 12, 0o644, Time.zero, false⟩])] := by
  decide!

/-- C6 (the code differs): when the destination takes only three of the four
bytes of the compressed empty Index, Write still completes normally; the file
holds the three bytes, and reading it back ends the run. -/
theorem Write_completes_after_short_write :
    (Cache.Write Gzip.stored fullWorld Cache.empty (ascii "out")).map
        (fun w => (w.files (ascii "out"), CacheFromFile Gzip.stored w (ascii "out"))) =
      .ok (some [byte 0x1f, byte 0x8b, byte 123], .error (.fatal .unmarshal)) := by
  decide!

/-- C4 as stated fails: a tree of one directory and one regular file, where
the file cannot be opened, yields no Index; the run ends at the key of the
file. -/
theorem CacheFromDirRecursive_sealed_file :
    (sealedWorld.tree (ascii "/r")).numFiles = 1 ∧ (sealedWorld.tree (ascii "/r")).numDirs = 1 ∧
      CacheFromDirRecursive sealedWorld (ascii "/r") = .error (.fatal .openFile) := by
  decide!

/-- C4, amended: for every directory tree with N entries that are not
directories and M directories, in which every entry can be examined, every
directory listed and every file opened and read, CacheFromDirRecursive on its
root yields an Index whose sequences hold exactly N records in total, none of
them for a directory, and each of the N files is the Name (the full path) of a
record under some key. -/
theorem CacheFromDirRecursive_complete (w : World) (startDir root : GoString) (N M : Nat)
    (habs : w.abs startDir = some root)
    (hN : (w.tree root).numFiles = N) (_hM : (w.tree root).numDirs = M)
    (hread : (w.tree root).readable = true)
    (hopen : ∀ p ∈ (w.tree root).filePaths root, (w.files p).isSome = true) :
    ∃ c, CacheFromDirRecursive w startDir = .ok c ∧ c.records.length = N ∧
      (∀ r ∈ c.records, r.IsDir = false) ∧
      (∀ p ∈ (w.tree root).filePaths root, ∃ k r, r ∈ c.get k ∧ r.Name = p) := by
  have hfiles : ∀ fi ∈ (w.tree root).fileRecords root, (w.files fi.Name).isSome = true := by
    intro fi hfi
    apply hopen
    rw [← fileRecords_names]
    exact List.mem_map_of_mem _ hfi
  obtain ⟨c, hc, hperm⟩ := insertAll_records w _ Cache.empty rfl hfiles
  obtain ⟨c2, hc2, hget, _⟩ := NewCache_spec w _ hfiles
  have hcc : c2 = c := by
    have := hc2.symm.trans hc
    exact Except.ok.inj this
  subst hcc
  have hperm2 : c2.records.Perm ((w.tree root).fileRecords root) := by
    simpa [Cache.records, Cache.empty] using hperm
  refine ⟨c2, ?_, ?_, ?_, ?_⟩
  · simp only [CacheFromDirRecursive, habs, walk_readable _ root [] hread, List.nil_append]
    exact hc2
  · rw [hperm2.length_eq, fileRecords_length, hN]
  · intro r hr
    exact fileRecords_notDir _ root r (hperm2.mem_iff.1 hr)
  · intro p hp
    rw [← fileRecords_names] at hp
    obtain ⟨r, hr, hname⟩ := List.mem_map.1 hp
    obtain ⟨k, hk⟩ := Option.isSome_iff_exists.1 (hfiles r hr)
    refine ⟨hexString (MD5.sum k), r, ?_, hname⟩
    rw [hget]
    exact List.mem_filter.2 ⟨hr, by simp [digestKey, hk]⟩

theorem CacheFromDirRecursive_complete_witness :
    ∃ c, CacheFromDirRecursive treeWorld (ascii "r") = .ok c ∧ c.records.length = 2 ∧
      (∀ r ∈ c.records, r.IsDir = false) ∧
      (∀ p ∈ (treeWorld.tree (ascii "/r")).filePaths (ascii "/r"),
        ∃ k r, r ∈ c.get k ∧ r.Name = p) :=
  CacheFromDirRecursive_complete treeWorld (ascii "r") (ascii "/r") 2 2 (by decide) (by decide)
    (by decide) (by decide) (by decide)

/-- C8 as stated fails: for an Index with a ModTime in the year 10000 the
encoder reports an error, so there is no payload and Write ends the run; for
the Index `Cache{"k": nil}` the payload maps the key to `null`, not to an
array; and for the nil Index the payload is `null`, not an object. -/
theorem jsonMarshal_not_object_of_arrays :
    jsonMarshal lateCache = none ∧
      (∀ (z : Gzip) (w : World) (fname : GoString),
        lateCache.Write z w fname = .error (.fatal .marshal)) ∧
      jsonMarshal nilSliceCache = some (ascii "\x7b\"k\":null\x7d") ∧
      jsonMarshal Cache.null = some (ascii "null") := by
  have h : jsonMarshal lateCache = none := by decide!
  exact ⟨h, fun z w fname => by simp only [Cache.Write, h], by decide!, by decide!⟩

/-- C8, amended: for every Index whose ModTime years are in 0..9999, the
payload that Write compresses is `null` for the nil Index and otherwise the
compact text of the JSON object that maps each key to the array of its records
in sequence order, or to `null` where the key's sequence is the nil slice,
each record an object with exactly the members name, size, mode, modTime (the
timestamp text) and isDir, in this order; and the Index holding the one record
Foo (size 0, mode 0, zero ModTime, not a directory) under key
78138d2003f1a87043d65c692fb3a64b is encoded as exactly the text of the
specification. -/
theorem Write_payload_is_document (c : Cache)
    (h : ∀ fi ∈ c.records, 0 ≤ fi.ModTime.year ∧ fi.ModTime.year < 10000) :
    jsonMarshal c = some c.toJson.render ∧
      (c.isNil = true → jsonMarshal c = some (ascii "null")) ∧
      (c.isNil = false → jsonMarshal c =
        some (Json.obj (c.entries.map (fun e => (e.1, e.2.toJson)))).render) ∧
      (∀ (z : Gzip) (w : World) (fname : GoString),
        c.Write z w fname =
          match z.compress (writeHeader w) c.toJson.render with
          | none => .error (.fatal .compress)
          | some buf => if w.denied fname then .error (.fatal .create) else .ok (w.written fname buf)) ∧
      jsonMarshal fooCache = some (ascii
        "\x7b\"78138d2003f1a87043d65c692fb3a64b\":[\x7b\"name\":\"Foo\",\"size\":0,\"mode\":0,\"modTime\":\"0001-01-01T00:00:00Z\",\"isDir\":false\x7d]\x7d") := by
  have hm := jsonMarshal_eq c h
  refine ⟨hm, fun hn => ?_, fun hn => ?_, fun z w fname => ?_, by decide!⟩
  · rw [hm, Cache.toJson, if_pos hn]
    rfl
  · rw [hm, Cache.toJson, hn]
    rfl
  · simp only [Cache.Write, hm]

theorem Write_payload_is_document_witness :
    jsonMarshal fooCache = some fooCache.toJson.render :=
  (Write_payload_is_document fooCache (by decide)).1

/-- C1 as stated fails: an Index with a Name that is not valid UTF-8 is read
back with the Name replaced by U+FFFD, an Index that is not the one written. -/
theorem roundtrip_invalid_utf8 :
    (rawCache.Write Gzip.stored fooWorld (ascii "out")).bind
        (fun w1 => CacheFromFile Gzip.stored w1 (ascii "out")) = .ok replacedCache ∧
      replacedCache ≠ rawCache := by
  decide!

/-- C1, amended: for every Index whose keys and Names are valid UTF-8 and
whose ModTimes have a year in 0..9999 and a zone offset of whole minutes, less
than 24 hours, when the destination can be opened and takes all the bytes of
the compressed payload, Write completes and reading the file back with
CacheFromFile yields an Index equal to the one written: the same keys, and
under each key the same records in the same order, field for field. -/
theorem Write_then_CacheFromFile (z : Gzip) (w : World) (c : Cache) (fname : GoString)
    (hw : c.timesWellFormed = true) (hc : c.carried = true)
    (hopen : w.denied fname = false)
    (hz : ∀ payload, jsonMarshal c = some payload →
      ∃ buf, z.compress (writeHeader w) payload = some buf ∧ buf.length ≤ w.room) :
    ∃ w1, c.Write z w fname = .ok w1 ∧ CacheFromFile z w1 fname = .ok c := by
  have hm := jsonMarshal_text c hw hc
  obtain ⟨buf, hbuf, hroom⟩ := hz _ hm
  obtain ⟨hdr1, hdec⟩ := z.inverse _ _ _ hbuf
  refine ⟨w.written fname buf, ?_, ?_⟩
  · simp only [Cache.Write, hm, hbuf, hopen]
    rfl
  · have hfile : (w.written fname buf).files fname = some buf := by
      simp only [World.written, if_true, List.take_of_length_le hroom]
    simp only [CacheFromFile, hfile, hdec, jsonUnmarshal_text c hw hc]

theorem Write_then_CacheFromFile_witness :
    ∃ w1, fooCache.Write Gzip.stored fooWorld (ascii "out") = .ok w1 ∧
      CacheFromFile Gzip.stored w1 (ascii "out") = .ok fooCache :=
  Write_then_CacheFromFile Gzip.stored fooWorld fooCache (ascii "out") (by decide) (by decide)
    (by decide) (fun payload hp => by
      have hm : jsonMarshal fooCache = some (indexText fooCache) :=
        jsonMarshal_text fooCache (by decide) (by decide)
      rw [hm] at hp
      have hlen : (indexText fooCache).length + 2 ≤ 4096 := by decide!
      rw [← Option.some.inj hp]
      exact ⟨_, rfl, hlen⟩)

end Fileinfocache
